import Mathlib

/-!
# Verification of the shattuck managed-heap core

Shallow embedding of the repository's current core iteration:

* `src/core/error.rs`   — the unified `Error` enum,
* `src/core/object.rs`  — type-erased `Object` / `SyncObject` cells,
* `src/core/memory.rs`  — `Dual`, `Slot`, `Address`, `Memory` with
  mark-and-sweep `collect`, capacity-checked insertion, and in-place
  promotion (`Address::share`),
* `src/objects/thread.rs` — argument/result marshalling of `make_thread`
  and `make_join`.

Rust raw pointers (`Address(*mut Slot)`) are modelled as natural-number
ids into an association-list store; the store stands for the boxed
`Slot`s owned through those pointers.  Machine-level effects that a pure
model cannot carry (the `drop` of a moved-out payload, a panic) are made
explicit where a claim depends on them.

The frame-based `Runtime`/`Method`/`RuntimeBuilder` used by
`src/objects/thread.rs` is not present under `src/` (only this caller
is); those parts are modelled from the spec and are marked
`Modelled from the spec:` below.
-/

namespace Shattuck

/-- The unified error enum of `src/core/error.rs` (note: it has exactly
these ten variants; in particular there is no `JoinConsumed`). -/
inductive Error where
  | typeMismatch
  | violateSync
  | invalidAddress
  | outOfMemory
  | notCallable
  | notSharable
  | expectLocal
  | expectShared
  | exhaustedFrame
  | noParentFrame
  deriving DecidableEq, Repr

/-- The closed universe of payload contents used by the embedding
(`i32`/`Int` test payloads, holdee-carrying `Node`s, the `Join` payload
of `src/objects/thread.rs`, and the spec-modelled `Method` and `Frame`
payloads).  An arbitrary holdee graph is expressible through `node`. -/
inductive Content where
  | int (n : Int)
  | node (holdees : List Nat)
  | join (handle : Option Nat)
  | method (f : Nat) (context : Nat)
  | frame (context : Nat) (stack : List Nat) (parent : Option Nat)
  deriving DecidableEq, Repr

/-- The payload types (`T : Any` in the Rust source): the type tag that
`Box<dyn Any>` downcasting recovers. -/
inductive Ty where
  | int
  | node
  | join
  | method
  | frame
  deriving DecidableEq, Repr

/-- Denotation of a payload type: the Rust value before type erasure. -/
def Ty.denote : Ty → Type
  | .int => Int
  | .node => List Nat
  | .join => Option Nat
  | .method => Nat × Nat
  | .frame => Nat × List Nat × Option Nat

/-- Type erasure: `Box::new(content)` in `Object::new`. -/
def Ty.upcast : (t : Ty) → t.denote → Content
  | .int, n => .int n
  | .node, l => .node l
  | .join, h => .join h
  | .method, p => .method p.1 p.2
  | .frame, p => .frame p.1 p.2.1 p.2.2

/-- Checked downcast (`downcast_ref`/`downcast` on `dyn Any`): succeeds
exactly when the stored content has the requested type tag, otherwise
`Error::TypeMismatch` (see `Object::as_ref`/`Object::take`). -/
def Ty.downcast : (t : Ty) → Content → Except Error t.denote
  | .int, .int n => .ok n
  | .node, .node l => .ok l
  | .join, .join h => .ok h
  | .method, .method f c => .ok (f, c)
  | .frame, .frame c s p => .ok (c, s, p)
  | _, _ => .error .typeMismatch

/-- Per-payload `GetHoldee::get_holdee` implementations: `Int` and
`Join` are leaves (`Vec::new()`), `Node` holds its list (memory.rs
tests).  `Method` and `Frame` holdees are modelled from the spec:
a Method keeps its bound context alive; a Frame's holdees are its
context, every stack entry, and its parent (§4.3). -/
def Ty.getHoldee : (t : Ty) → t.denote → List Nat
  | .int, _ => []
  | .node, l => l
  | .join, _ => []
  | .method, p => [p.2]
  | .frame, p => p.1 :: p.2.1 ++ p.2.2.toList

/-- State of the `RwLock` inside a `SyncObject`: outstanding read
guards, and the thread id of an outstanding write guard if any.  The
source never consults thread identity; the `writer` id exists so that
claims about "the same thread" can be stated. -/
structure Lock where
  readers : Nat
  writer : Option Nat
  deriving DecidableEq, Repr

/-- The unlocked state a fresh `RwLock::new` starts in. -/
def Lock.free : Lock := { readers := 0, writer := none }

/-- `SyncObject` of `src/core/object.rs`: `Arc<RwLock<dyn Any + Send +
Sync>>`.  `clone` shares the same `Arc`, so a clone is the same value of
this structure.  (The `get_holdee_f` field is dropped: `Dual::get_holdee`
never consults it for Shared cells.) -/
structure SyncObject where
  content : Content
  lock : Lock
  deriving DecidableEq, Repr

/-- `SyncObject::new`: wrap a payload in a fresh (unlocked) `RwLock`. -/
def SyncObject.new (c : Content) : SyncObject := { content := c, lock := Lock.free }

/-- `Arc::clone` on the handle: the same underlying payload and lock. -/
def SyncObject.clone (s : SyncObject) : SyncObject := s

/-- A read guard (`SyncRef`) exposing the payload. -/
structure SyncRef where
  val : Content
  deriving DecidableEq, Repr

/-- A write guard (`SyncMut`) exposing the payload. -/
structure SyncMut where
  val : Content
  deriving DecidableEq, Repr

/-- `SyncObject::get_ref`: `try_read`, which fails with `ViolateSync`
exactly when a write guard is outstanding — held by *any* thread; the
call never blocks and never consults thread identity. -/
def SyncObject.get_ref (s : SyncObject) : Except Error SyncRef :=
  if s.lock.writer.isSome then .error .violateSync else .ok ⟨s.content⟩

/-- `SyncObject::get_mut`: `try_write`, which fails with `ViolateSync`
exactly when any guard (read or write) is outstanding. -/
def SyncObject.get_mut (s : SyncObject) : Except Error SyncMut :=
  if s.lock.writer.isSome ∨ s.lock.readers ≠ 0 then .error .violateSync
  else .ok ⟨s.content⟩

/-- Per-payload `ToSync::to_sync` implementations: `Int` and `Join` are
sharable as themselves (memory.rs tests, thread.rs); `Node` is `NoSync`
(memory.rs tests).  Modelled from the spec: the `NoSync` marker trait is
declared outside `src/` — per §6 an unsharable type's `to_sync` returns
`NotSharable`; per §5 Frames are never promoted; Methods are promotable
(§2), to a SyncMethod with the same data. -/
def Ty.toSync : (t : Ty) → t.denote → Except Error Content
  | .int, n => .ok (.int n)
  | .node, _ => .error .notSharable
  | .join, h => .ok (.join h)
  | .method, p => .ok (.method p.1 p.2)
  | .frame, _ => .error .notSharable

/-- The vtable entry `T::get_object_holdee` captured by `Object::new`:
downcast the erased content back to `T` and call its `get_holdee`.
The source `unwrap`s the downcast; it cannot fail for objects built by
`Object::new` (theorem `object_new_faithful`), and the panic branch is
modelled as an empty holdee list. -/
def getObjectHoldee (t : Ty) (c : Content) : List Nat :=
  match t.downcast c with
  | .ok x => t.getHoldee x
  | .error _ => []

/-- The vtable entry `T::make_sync` captured by `Object::new`
(`MakeSync::make_sync`): take the payload out of the box
(`object.take::<T>()?`), run `to_sync`, and wrap the target in a fresh
`SyncObject`. -/
def makeSyncF (t : Ty) (c : Content) : Except Error SyncObject := do
  let x ← t.downcast c
  let tgt ← t.toSync x
  pure (SyncObject.new tgt)

/-- `Object` of `src/core/object.rs`: a type-erased box together with
the two function pointers captured at construction time. -/
structure Object where
  content : Content
  get_holdee_f : Content → List Nat
  make_sync_f : Content → Except Error SyncObject

/-- `Object::new`: erase the payload and capture `T`'s vtable entries. -/
def Object.new (t : Ty) (x : t.denote) : Object :=
  { content := t.upcast x
    get_holdee_f := getObjectHoldee t
    make_sync_f := makeSyncF t }

/-- `Object::get_holdee`: dispatch through the captured function. -/
def Object.get_holdee (o : Object) : List Nat := o.get_holdee_f o.content

/-- `Object::into_sync`: dispatch through the captured function. -/
def Object.into_sync (o : Object) : Except Error SyncObject := o.make_sync_f o.content

/-- `Object::as_ref::<T>`: checked downcast of the content. -/
def Object.as_ref (t : Ty) (o : Object) : Except Error t.denote := t.downcast o.content

/-- Key fact behind the erasure: downcasting at the type the value was
erased from recovers the value. -/
theorem downcast_upcast (t : Ty) (x : t.denote) : t.downcast (t.upcast x) = .ok x := by
  cases t <;> rfl

/-! ## `src/core/memory.rs`: `Dual`, `Slot`, `Address`, `Memory` -/

/-- `Dual` of `src/core/memory.rs`: the cell of a slot. -/
inductive Dual where
  | Local (obj : Object)
  | Shared (obj : SyncObject)

/-- `DualRef`: a read reference into either kind of cell. -/
inductive DualRef where
  | Local (obj : Object)
  | Shared (r : SyncRef)

/-- `Dual::get_ref`: a Local cell always hands out the reference
(exclusive borrows are ruled out statically by the borrow checker, so
none can be outstanding at the call); a Shared cell goes through
`SyncObject::get_ref` (`try_read`). -/
def Dual.get_ref : Dual → Except Error DualRef
  | .Local obj => .ok (.Local obj)
  | .Shared obj => (obj.get_ref).map .Shared

/-- `Dual::into_shared`: promote the cell, via `Object::into_sync` for a
Local cell; a Shared cell passes through unchanged. -/
def Dual.into_shared : Dual → Except Error Dual
  | .Local obj => (obj.into_sync).map .Shared
  | .Shared obj => .ok (.Shared obj)

/-- `Dual::get_holdee`: a Local cell asks its payload; a Shared cell
conservatively reports no holdees (`Vec::new()`). -/
def Dual.get_holdee : Dual → List Nat
  | .Local obj => obj.get_holdee
  | .Shared _ => []

/-- A heap slot: one cell plus the mark bit. -/
structure Slot where
  dual : Dual
  mark : Bool

/-- The slot initialisation done by `Address::new`:
`Slot { dual, mark: false }` (the fresh box address itself is chosen by
`Memory.next` in this model). -/
def Slot.new (d : Dual) : Slot := { dual := d, mark := false }

/-- `Address` is an opaque copyable handle (`*mut Slot` in the source),
modelled as a natural-number id. -/
abbrev Address := Nat

/-- The boxed `Slot`s owned through raw pointers, as an association
list from address to slot. -/
abbrev Store := List (Nat × Slot)

/-- Dereference an address (`Address::slot_ref`): `none` models a
dangling pointer. -/
def lookupSlot : Store → Nat → Option Slot
  | [], _ => none
  | (k, s) :: rest, a => if k = a then some s else lookupSlot rest a

/-- Write the mark bit of the slot behind an address
(`Address::mark` / `Address::unmark`). -/
def setMark : Store → Nat → Bool → Store
  | [], _, _ => []
  | (k, s) :: rest, a, b =>
    if k = a then (k, { s with mark := b }) :: rest else (k, s) :: setMark rest a b

/-- Overwrite the cell behind an address (the `ptr::write` in
`Address::share`). -/
def setDual : Store → Nat → Dual → Store
  | [], _, _ => []
  | (k, s) :: rest, a, d =>
    if k = a then (k, { s with dual := d }) :: rest else (k, s) :: setDual rest a d

/-- Free the slot behind an address (`Address::release`:
`Box::from_raw` + drop). -/
def removeAddr : Store → Nat → Store
  | [], _ => []
  | (k, s) :: rest, a => if k = a then rest else (k, s) :: removeAddr rest a

/-- The addresses of the currently boxed slots. -/
def storeKeys (st : Store) : List Nat := st.map Prod.fst

/-- `Address::is_marked` (false on a dangling address, which under
well-formedness never occurs). -/
def isMarked (st : Store) (a : Nat) : Bool :=
  match lookupSlot st a with
  | some s => s.mark
  | none => false

/-- The cell behind an address, if the address is live. -/
def dualAt (st : Store) (a : Nat) : Option Dual := (lookupSlot st a).map Slot.dual

/-- `Address::get_holdee` (empty on a dangling address). -/
def getHoldeeAt (st : Store) (a : Nat) : List Nat :=
  match lookupSlot st a with
  | some s => s.dual.get_holdee
  | none => []

/-- `Memory` of `src/core/memory.rs`.  The `store` stands for the boxed
slots owned through the raw `Address` pointers in `slots`; `next`
provides the freshness of `Box::into_raw` addresses. -/
structure Memory where
  store : Store
  slots : List Nat
  n_slots_max : Nat
  entry : Option Nat
  next : Nat

/-- `Memory::new`. -/
def Memory.new (n_slots_max : Nat) : Memory :=
  { store := [], slots := [], n_slots_max := n_slots_max, entry := none, next := 0 }

/-- `Memory::n_object`. -/
def Memory.n_object (m : Memory) : Nat := m.slots.length

/-- `Memory::set_entry`. -/
def Memory.set_entry (m : Memory) (e : Nat) : Memory := { m with entry := some e }

/-- Number of unmarked boxed slots (termination measure component). -/
def unmarkedCount (st : Store) : Nat := (st.filter (fun p => !p.2.mark)).length

/-- Number of queue entries whose slot is currently marked (termination
measure component). -/
def countMarked (st : Store) (q : List Nat) : Nat :=
  (q.filter (fun a => isMarked st a)).length

theorem lookupSlot_setMark_self (st : Store) (a : Nat) (b : Bool) :
    lookupSlot (setMark st a b) a =
      (lookupSlot st a).map (fun s => { s with mark := b }) := by
  induction st with
  | nil => simp [setMark, lookupSlot]
  | cons p rest ih =>
    obtain ⟨k, s⟩ := p
    by_cases hk : k = a
    · simp [setMark, lookupSlot, hk]
    · simp [setMark, lookupSlot, hk, ih]

theorem lookupSlot_setMark_ne (st : Store) {a c : Nat} (h : c ≠ a) (b : Bool) :
    lookupSlot (setMark st a b) c = lookupSlot st c := by
  induction st with
  | nil => simp [setMark, lookupSlot]
  | cons p rest ih =>
    obtain ⟨k, s⟩ := p
    by_cases hk : k = a
    · subst hk
      have : ¬ k = c := fun hkc => h (hkc ▸ rfl)
      simp [setMark, lookupSlot, this]
    · by_cases hc : k = c
      · subst hc
        simp [setMark, lookupSlot, hk, h]
      · simp [setMark, lookupSlot, hk, hc, ih]

theorem setMark_absent {st : Store} {a : Nat} (h : lookupSlot st a = none) (b : Bool) :
    setMark st a b = st := by
  induction st with
  | nil => rfl
  | cons p rest ih =>
    obtain ⟨k, s⟩ := p
    simp only [lookupSlot] at h
    by_cases hk : k = a
    · rw [if_pos hk] at h; exact absurd h (by simp)
    · rw [if_neg hk] at h
      simp [setMark, hk, ih h]

theorem setMark_noop {st : Store} {a : Nat} {s : Slot} (h : lookupSlot st a = some s)
    {b : Bool} (hb : s.mark = b) : setMark st a b = st := by
  induction st with
  | nil => simp [lookupSlot] at h
  | cons p rest ih =>
    obtain ⟨k, s'⟩ := p
    simp only [lookupSlot] at h
    by_cases hk : k = a
    · rw [if_pos hk] at h
      have hs : s' = s := by injection h
      subst hs
      simp [setMark, hk, ← hb]
    · rw [if_neg hk] at h
      simp [setMark, hk, ih h]

theorem getHoldeeAt_absent {st : Store} {a : Nat} (h : lookupSlot st a = none) :
    getHoldeeAt st a = [] := by
  simp [getHoldeeAt, h]

theorem isMarked_absent {st : Store} {a : Nat} (h : lookupSlot st a = none) :
    isMarked st a = false := by
  simp [isMarked, h]

theorem unmarkedCount_setMark_lt {st : Store} {a : Nat} {s : Slot}
    (h : lookupSlot st a = some s) (hm : s.mark = false) :
    unmarkedCount (setMark st a true) < unmarkedCount st := by
  induction st with
  | nil => simp [lookupSlot] at h
  | cons p rest ih =>
    obtain ⟨k, s'⟩ := p
    simp only [lookupSlot] at h
    by_cases hk : k = a
    · rw [if_pos hk] at h
      have hs : s' = s := by injection h
      subst hs
      rw [setMark, if_pos hk]
      unfold unmarkedCount
      rw [List.filter_cons, List.filter_cons]
      simp only [hm, Bool.not_false, Bool.not_true, if_true, if_false, List.length_cons]
      simp
    · rw [if_neg hk] at h
      have ihh := ih h
      unfold unmarkedCount at ihh ⊢
      rw [setMark, if_neg hk]
      rw [List.filter_cons, List.filter_cons]
      by_cases hmk : s'.mark
      · simp only [hmk, Bool.not_true]
        simpa using ihh
      · simp only [Bool.not_eq_true] at hmk
        simp only [hmk, Bool.not_false, if_true, List.length_cons]
        simpa using Nat.succ_lt_succ ihh

theorem countMarked_cons (st : Store) (a : Nat) (q : List Nat) :
    countMarked st (a :: q) =
      (if isMarked st a then 1 else 0) + countMarked st q := by
  by_cases h : isMarked st a <;> simp [countMarked, h] <;> omega

theorem countMarked_append (st : Store) (q₁ q₂ : List Nat) :
    countMarked st (q₁ ++ q₂) = countMarked st q₁ + countMarked st q₂ := by
  simp [countMarked]

/-- The mark phase of `Memory::collect`: pop an address from the queue,
set its mark, and enqueue its unmarked holdees.  Termination: each pop
either marks a previously unmarked slot, or (if the slot was already
marked) removes a marked entry from the queue while adding only
unmarked ones, or (dangling address, impossible under well-formedness)
shortens the queue. -/
def markLoop (st : Store) (q : List Nat) : Store :=
  match q with
  | [] => st
  | a :: rest =>
    markLoop (setMark st a true)
      (rest ++ (getHoldeeAt (setMark st a true) a).filter
        (fun h => !isMarked (setMark st a true) h))
  termination_by (unmarkedCount st, countMarked st q, q.length)
  decreasing_by
    rcases h : lookupSlot st a with _ | s
    · rw [setMark_absent h, getHoldeeAt_absent h]
      simp only [List.filter_nil, List.append_nil]
      have h2 : countMarked st (a :: rest) = countMarked st rest := by
        rw [countMarked_cons, isMarked_absent h]; simp
      rw [h2]
      exact Prod.Lex.right _ (Prod.Lex.right _ (by simp))
    · rcases hm : s.mark with _ | _
      · exact Prod.Lex.left _ _ (unmarkedCount_setMark_lt h hm)
      · rw [setMark_noop h hm]
        have hlt : countMarked st
            (rest ++ (getHoldeeAt st a).filter (fun h => !isMarked st h)) <
            countMarked st (a :: rest) := by
          rw [countMarked_append, countMarked_cons]
          have hz : countMarked st
              ((getHoldeeAt st a).filter (fun h => !isMarked st h)) = 0 := by
            unfold countMarked
            rw [List.length_eq_zero, List.filter_eq_nil_iff]
            intro x hx
            simp only [List.mem_filter, Bool.not_eq_true'] at hx
            simp [hx.2]
          rw [hz]
          simp [isMarked, h, hm]
        exact Prod.Lex.right _ (Prod.Lex.left _ _ hlt)

/-- The sweep phase of `Memory::collect` (`self.slots.retain(...)`):
walk the slot list in order; an unmarked slot is released (its box
freed), a marked slot is kept and its mark cleared.  Returns the final
store, the retained slot list, and the list of released addresses
(one entry per `release` call, in call order). -/
def sweep (st : Store) : List Nat → Store × List Nat × List Nat
  | [] => (st, [], [])
  | a :: rest =>
    if isMarked st a then
      let r := sweep (setMark st a false) rest
      (r.1, a :: r.2.1, r.2.2)
    else
      let r := sweep (removeAddr st a) rest
      (r.1, r.2.1, a :: r.2.2)

/-- `Memory::collect` together with the list of addresses released by
the sweep (the timing `println!` of the source is I/O and not
modelled). -/
def Memory.collectAux (m : Memory) : Memory × List Nat :=
  let st1 := markLoop m.store m.entry.toList
  let r := sweep st1 m.slots
  ({ m with store := r.1, slots := r.2.1 }, r.2.2)

/-- `Memory::collect`. -/
def Memory.collect (m : Memory) : Memory := m.collectAux.1

/-- `Memory::insert_dual`: if the slot count has reached `n_slots_max`,
collect; if it still equals `n_slots_max`, fail with `OutOfMemory`;
otherwise box a fresh slot at a fresh address, record it, and return
the address.  The memory component of the pair is the state after the
call (`&mut self`). -/
def Memory.insert_dual (m : Memory) (d : Dual) : Except Error Nat × Memory :=
  let m1 := if m.n_object = m.n_slots_max then m.collect else m
  if m1.n_object = m1.n_slots_max then (.error .outOfMemory, m1)
  else
    (.ok m1.next,
     { m1 with
       store := m1.store ++ [(m1.next, Slot.new d)]
       slots := m1.slots ++ [m1.next]
       next := m1.next + 1 })

/-- `Memory::insert_local`. -/
def Memory.insert_local (m : Memory) (o : Object) : Except Error Nat × Memory :=
  m.insert_dual (.Local o)

/-- `Memory::insert_shared`. -/
def Memory.insert_shared (m : Memory) (s : SyncObject) : Except Error Nat × Memory :=
  m.insert_dual (.Shared s)

/-- `Address::share`: `ptr::read` the slot, promote its cell with
`Dual::into_shared`, `ptr::write` it back, and return a clone of the
now-Shared handle.  A dangling address is undefined behaviour in the
source (`unwrap` of a null check); it is mapped to `InvalidAddress`
here and never reached under well-formedness.  On the error path the
source's `?` returns *before* the `ptr::write`; the store is returned
unchanged, which matches the slot's bytes — see `shareTrace` for the
ownership consequence. -/
def Address.share (a : Address) (st : Store) : Except Error (SyncObject × Store) :=
  match lookupSlot st a with
  | none => .error .invalidAddress
  | some slot =>
    match slot.dual.into_shared with
    | .error e => .error e
    | .ok d =>
      match d with
      | .Shared s => .ok (s.clone, setDual st a d)
      | .Local _ => .error .notSharable  -- the `unreachable!()` arm of the source

/-- Ownership trace of the `unsafe` block in `Address::share`:
`ptr::read` copies the slot, `into_shared` consumes the copied `Dual`
by value — for a Local cell this moves the payload out of its box
(`Object::take`) and, on the error path of `to_sync`, drops it — and
`ptr::write` restores the slot only on the success path.
`localPayloadConsumed` records that the Local payload's storage was
consumed; `writeBack` records that `ptr::write` executed.  When
`localPayloadConsumed = true` and `writeBack = false`, the slot still
holds its old bytes, which reference a payload that has been dropped:
any later access through the address is a use-after-free. -/
structure ShareTrace where
  result : Except Error SyncObject
  localPayloadConsumed : Bool
  writeBack : Bool

/-- The trace `Address::share` produces on a slot holding `d`. -/
def shareTrace (d : Dual) : ShareTrace :=
  match d with
  | .Local obj =>
    match obj.into_sync with
    | .ok s => { result := .ok s.clone, localPayloadConsumed := true, writeBack := true }
    | .error e => { result := .error e, localPayloadConsumed := true, writeBack := false }
  | .Shared s => { result := .ok s.clone, localPayloadConsumed := false, writeBack := true }

/-! ## Well-formedness and reachability -/

/-- The holdee edge of the heap graph: `b` is one of the addresses the
payload at `a` keeps alive (`Dual::get_holdee`; a Shared cell
contributes no edges). -/
def Holds (st : Store) (a b : Nat) : Prop := b ∈ getHoldeeAt st a

/-- Reachability by repeatedly following `get_holdee` (the closure the
mark phase computes). -/
def Reach (st : Store) (a b : Nat) : Prop := Relation.ReflTransGen (Holds st) a b

/-- Well-formedness of a `Memory`, maintained by the heap operations:
the boxed slots are exactly the recorded addresses (in order), every
holdee and the entry denote recorded slots, every mark bit is clear
outside a collection, and every recorded address is below the
freshness counter. -/
structure Memory.WF (m : Memory) : Prop where
  keys : storeKeys m.store = m.slots
  nodup : m.slots.Nodup
  holdeeClosed : ∀ a ∈ m.slots, ∀ b ∈ getHoldeeAt m.store a, b ∈ m.slots
  entryMem : ∀ e, m.entry = some e → e ∈ m.slots
  marksClear : ∀ p ∈ m.store, p.2.mark = false
  fresh : ∀ a ∈ m.slots, a < m.next

/-! ### Store-update invariance lemmas -/

theorem dualAt_setMark (st : Store) (a : Nat) (b : Bool) (c : Nat) :
    dualAt (setMark st a b) c = dualAt st c := by
  unfold dualAt
  by_cases h : c = a
  · subst h
    rw [lookupSlot_setMark_self]
    cases lookupSlot st c <;> simp [Slot.dual]
  · rw [lookupSlot_setMark_ne st h]

theorem getHoldeeAt_setMark (st : Store) (a : Nat) (b : Bool) (c : Nat) :
    getHoldeeAt (setMark st a b) c = getHoldeeAt st c := by
  unfold getHoldeeAt
  by_cases h : c = a
  · subst h
    rw [lookupSlot_setMark_self]
    cases lookupSlot st c <;> simp
  · rw [lookupSlot_setMark_ne st h]

theorem isSome_setMark (st : Store) (a : Nat) (b : Bool) (c : Nat) :
    (lookupSlot (setMark st a b) c).isSome = (lookupSlot st c).isSome := by
  by_cases h : c = a
  · subst h
    rw [lookupSlot_setMark_self]
    cases lookupSlot st c <;> simp
  · rw [lookupSlot_setMark_ne st h]

theorem storeKeys_setMark (st : Store) (a : Nat) (b : Bool) :
    storeKeys (setMark st a b) = storeKeys st := by
  induction st with
  | nil => rfl
  | cons p rest ih =>
    obtain ⟨k, s⟩ := p
    by_cases hk : k = a <;> simp [setMark, storeKeys, hk] <;>
      simpa [storeKeys] using ih

theorem isMarked_setMark_ne (st : Store) {a c : Nat} (h : c ≠ a) (b : Bool) :
    isMarked (setMark st a b) c = isMarked st c := by
  unfold isMarked
  rw [lookupSlot_setMark_ne st h]

theorem isMarked_setMark_self {st : Store} {a : Nat}
    (h : (lookupSlot st a).isSome) : isMarked (setMark st a true) a = true := by
  unfold isMarked
  rw [lookupSlot_setMark_self]
  obtain ⟨s, hs⟩ := Option.isSome_iff_exists.mp h
  rw [hs]
  rfl

theorem isMarked_setMark_mono {st : Store} {a c : Nat}
    (h : isMarked st c = true) : isMarked (setMark st a true) c = true := by
  by_cases hc : c = a
  · subst hc
    apply isMarked_setMark_self
    unfold isMarked at h
    cases hx : lookupSlot st c <;> rw [hx] at h <;> simp_all
  · rwa [isMarked_setMark_ne st hc]

theorem reach_setMark {st : Store} {a : Nat} {b : Bool} {x y : Nat} :
    Reach (setMark st a b) x y ↔ Reach st x y := by
  unfold Reach
  constructor <;> intro h <;> refine Relation.ReflTransGen.mono ?_ h <;>
    intro u v huv <;> simpa [Holds, getHoldeeAt_setMark] using huv

/-! ### Mark-phase correctness -/

theorem markLoop_nil (st : Store) : markLoop st [] = st := by
  rw [markLoop.eq_def]

theorem markLoop_cons (st : Store) (a : Nat) (rest : List Nat) :
    markLoop st (a :: rest) =
      markLoop (setMark st a true)
        (rest ++ (getHoldeeAt (setMark st a true) a).filter
          (fun h => !isMarked (setMark st a true) h)) := by
  rw [markLoop.eq_def]

theorem markLoop_dualAt (st : Store) (q : List Nat) (c : Nat) :
    dualAt (markLoop st q) c = dualAt st c := by
  induction st, q using markLoop.induct with
  | case1 st => rw [markLoop_nil]
  | case2 st a rest ih =>
    rw [markLoop_cons, ih, dualAt_setMark]

theorem markLoop_getHoldeeAt (st : Store) (q : List Nat) (c : Nat) :
    getHoldeeAt (markLoop st q) c = getHoldeeAt st c := by
  induction st, q using markLoop.induct with
  | case1 st => rw [markLoop_nil]
  | case2 st a rest ih =>
    rw [markLoop_cons, ih, getHoldeeAt_setMark]

theorem markLoop_keys (st : Store) (q : List Nat) :
    storeKeys (markLoop st q) = storeKeys st := by
  induction st, q using markLoop.induct with
  | case1 st => rw [markLoop_nil]
  | case2 st a rest ih =>
    rw [markLoop_cons, ih, storeKeys_setMark]

theorem markLoop_isSome (st : Store) (q : List Nat) (c : Nat) :
    (lookupSlot (markLoop st q) c).isSome = (lookupSlot st c).isSome := by
  induction st, q using markLoop.induct with
  | case1 st => rw [markLoop_nil]
  | case2 st a rest ih =>
    rw [markLoop_cons, ih, isSome_setMark]

theorem markLoop_mono {st : Store} {q : List Nat} {c : Nat}
    (h : isMarked st c = true) : isMarked (markLoop st q) c = true := by
  induction st, q using markLoop.induct with
  | case1 st => rwa [markLoop_nil]
  | case2 st a rest ih =>
    rw [markLoop_cons]
    exact ih (isMarked_setMark_mono h)

theorem markLoop_marks_queue {st : Store} {q : List Nat} {c : Nat}
    (hc : c ∈ q) (hp : (lookupSlot st c).isSome) :
    isMarked (markLoop st q) c = true := by
  induction st, q using markLoop.induct with
  | case1 st => simp at hc
  | case2 st a rest ih =>
    rw [markLoop_cons]
    rcases List.mem_cons.mp hc with h | h
    · subst h
      exact markLoop_mono (isMarked_setMark_self hp)
    · exact ih (List.mem_append_left _ h) (by rwa [isSome_setMark])

theorem markLoop_sound {st : Store} {q : List Nat} {c : Nat}
    (h : isMarked (markLoop st q) c = true) :
    isMarked st c = true ∨ ∃ r ∈ q, Reach st r c := by
  induction st, q using markLoop.induct with
  | case1 st => rw [markLoop_nil] at h; exact Or.inl h
  | case2 st a rest ih =>
    rw [markLoop_cons] at h
    rcases ih h with h1 | ⟨r, hr, hre⟩
    · by_cases hc : c = a
      · subst hc
        exact Or.inr ⟨c, List.mem_cons_self _ _, Relation.ReflTransGen.refl⟩
      · rw [isMarked_setMark_ne st hc] at h1
        exact Or.inl h1
    · have hre' : Reach st r c := reach_setMark.mp hre
      rcases List.mem_append.mp hr with h2 | h2
      · exact Or.inr ⟨r, List.mem_cons_of_mem _ h2, hre'⟩
      · have hmem : r ∈ getHoldeeAt st a := by
          have h3 := (List.mem_filter.mp h2).1
          rwa [getHoldeeAt_setMark] at h3
        exact Or.inr ⟨a, List.mem_cons_self _ _,
          Relation.ReflTransGen.head hmem hre'⟩

theorem markLoop_closed {st : Store} {q : List Nat}
    (hdom : ∀ x y, y ∈ getHoldeeAt st x → (lookupSlot st y).isSome)
    (hq : ∀ c ∈ q, (lookupSlot st c).isSome)
    (hinv : ∀ x, isMarked st x = true →
      ∀ y ∈ getHoldeeAt st x, isMarked st y = true ∨ y ∈ q) :
    ∀ x, isMarked (markLoop st q) x = true →
      ∀ y ∈ getHoldeeAt st x, isMarked (markLoop st q) y = true := by
  induction st, q using markLoop.induct with
  | case1 st =>
    intro x hx y hy
    rw [markLoop_nil] at hx ⊢
    rcases hinv x hx y hy with h | h
    · exact h
    · simp at h
  | case2 st a rest ih =>
    intro x hx y hy
    rw [markLoop_cons] at hx ⊢
    have hdom' : ∀ u v, v ∈ getHoldeeAt (setMark st a true) u →
        (lookupSlot (setMark st a true) v).isSome := by
      intro u v hv
      rw [getHoldeeAt_setMark] at hv
      rw [isSome_setMark]
      exact hdom u v hv
    have hq' : ∀ c ∈ rest ++ (getHoldeeAt (setMark st a true) a).filter
        (fun h => !isMarked (setMark st a true) h),
        (lookupSlot (setMark st a true) c).isSome := by
      intro c hc
      rw [isSome_setMark]
      rcases List.mem_append.mp hc with h | h
      · exact hq c (List.mem_cons_of_mem _ h)
      · have := (List.mem_filter.mp h).1
        rw [getHoldeeAt_setMark] at this
        exact hdom a c this
    have hinv2 : ∀ u, isMarked (setMark st a true) u = true →
        ∀ v ∈ getHoldeeAt (setMark st a true) u,
          isMarked (setMark st a true) v = true ∨
            v ∈ rest ++ (getHoldeeAt (setMark st a true) a).filter
              (fun h => !isMarked (setMark st a true) h) := by
      intro u hu v hv
      rw [getHoldeeAt_setMark] at hv
      by_cases hua : u = a
      · subst hua
        by_cases hvm : isMarked (setMark st u true) v = true
        · exact Or.inl hvm
        · refine Or.inr (List.mem_append_right _ (List.mem_filter.mpr ⟨?_, ?_⟩))
          · rwa [getHoldeeAt_setMark]
          · simpa using hvm
      · rw [isMarked_setMark_ne st hua] at hu
        rcases hinv u hu v hv with h | h
        · exact Or.inl (isMarked_setMark_mono h)
        · rcases List.mem_cons.mp h with h2 | h2
          · subst h2
            exact Or.inl (isMarked_setMark_self (hq v (List.mem_cons_self _ _)))
          · exact Or.inr (List.mem_append_left _ h2)
    exact ih hdom' hq' hinv2 x hx y (by rwa [getHoldeeAt_setMark])

theorem markLoop_complete {st : Store} {q : List Nat} {r c : Nat}
    (hdom : ∀ x y, y ∈ getHoldeeAt st x → (lookupSlot st y).isSome)
    (hq : ∀ d ∈ q, (lookupSlot st d).isSome)
    (hclear : ∀ d, isMarked st d = false)
    (hr : r ∈ q) (hre : Reach st r c) :
    isMarked (markLoop st q) c = true := by
  have hclosed := markLoop_closed hdom hq
    (fun x hx => by rw [hclear] at hx; exact absurd hx (by simp))
  induction hre with
  | refl => exact markLoop_marks_queue hr (hq r hr)
  | tail _ hstep ih => exact hclosed _ ih _ hstep

theorem markLoop_exact {st : Store} {q : List Nat} {c : Nat}
    (hdom : ∀ x y, y ∈ getHoldeeAt st x → (lookupSlot st y).isSome)
    (hq : ∀ d ∈ q, (lookupSlot st d).isSome)
    (hclear : ∀ d, isMarked st d = false) :
    isMarked (markLoop st q) c = true ↔ ∃ r ∈ q, Reach st r c := by
  constructor
  · intro h
    rcases markLoop_sound h with h1 | h1
    · rw [hclear] at h1; exact absurd h1 (by simp)
    · exact h1
  · rintro ⟨r, hr, hre⟩
    exact markLoop_complete hdom hq hclear hr hre

/-! ### Sweep-phase lemmas -/

theorem lookupSlot_removeAddr_ne (st : Store) {a c : Nat} (h : c ≠ a) :
    lookupSlot (removeAddr st a) c = lookupSlot st c := by
  induction st with
  | nil => rfl
  | cons p rest ih =>
    obtain ⟨k, s⟩ := p
    by_cases hk : k = a
    · subst hk
      have : ¬ k = c := fun hkc => h (hkc ▸ rfl)
      simp [removeAddr, lookupSlot, this]
    · by_cases hc : k = c
      · subst hc
        simp [removeAddr, lookupSlot, h, hk]
      · simp [removeAddr, lookupSlot, hk, hc, ih]

theorem storeKeys_removeAddr_sublist (st : Store) (a : Nat) :
    (storeKeys (removeAddr st a)).Sublist (storeKeys st) := by
  induction st with
  | nil => simp [removeAddr, storeKeys]
  | cons p rest ih =>
    obtain ⟨k, s⟩ := p
    by_cases hk : k = a
    · simp only [removeAddr, if_pos hk, storeKeys, List.map_cons]
      exact (List.sublist_cons_self _ _)
    · simp only [removeAddr, if_neg hk, storeKeys, List.map_cons]
      exact List.Sublist.cons₂ _ ih

theorem mem_storeKeys_of_lookup {st : Store} {a : Nat} {s : Slot}
    (h : lookupSlot st a = some s) : a ∈ storeKeys st := by
  induction st with
  | nil => simp [lookupSlot] at h
  | cons p rest ih =>
    obtain ⟨k, s'⟩ := p
    simp only [lookupSlot] at h
    by_cases hk : k = a
    · subst hk
      exact List.mem_cons_self _ _
    · rw [if_neg hk] at h
      exact List.mem_cons_of_mem _ (ih h)

theorem lookup_isSome_iff_mem_keys (st : Store) (a : Nat) :
    (lookupSlot st a).isSome ↔ a ∈ storeKeys st := by
  constructor
  · intro h
    obtain ⟨s, hs⟩ := Option.isSome_iff_exists.mp h
    exact mem_storeKeys_of_lookup hs
  · intro h
    induction st with
    | nil => simp [storeKeys] at h
    | cons p rest ih =>
      obtain ⟨k, s⟩ := p
      by_cases hk : k = a
      · simp [lookupSlot, hk]
      · simp only [storeKeys, List.map_cons, List.mem_cons] at h
        rcases h with h | h
        · exact absurd h.symm hk
        · simpa [lookupSlot, hk] using ih h

theorem lookupSlot_removeAddr_self {st : Store} {a : Nat}
    (h : (storeKeys st).Nodup) : lookupSlot (removeAddr st a) a = none := by
  induction st with
  | nil => rfl
  | cons p rest ih =>
    obtain ⟨k, s⟩ := p
    simp only [storeKeys, List.map_cons, List.nodup_cons] at h
    by_cases hk : k = a
    · subst hk
      rw [removeAddr, if_pos rfl]
      cases hx : lookupSlot rest k with
      | none => rfl
      | some s' => exact absurd (mem_storeKeys_of_lookup hx) h.1
    · rw [removeAddr, if_neg hk, lookupSlot, if_neg hk]
      exact ih h.2

theorem isMarked_removeAddr_ne (st : Store) {a c : Nat} (h : c ≠ a) :
    isMarked (removeAddr st a) c = isMarked st c := by
  unfold isMarked
  rw [lookupSlot_removeAddr_ne st h]

theorem lookup_of_mem_nodup {st : Store} (hknd : (storeKeys st).Nodup)
    {k : Nat} {s : Slot} (h : (k, s) ∈ st) : lookupSlot st k = some s := by
  induction st with
  | nil => simp at h
  | cons p rest ih =>
    obtain ⟨k2, s2⟩ := p
    simp only [storeKeys, List.map_cons, List.nodup_cons] at hknd
    rcases List.mem_cons.mp h with h1 | h1
    · injection h1 with h1a h1b
      subst h1a
      subst h1b
      rw [lookupSlot, if_pos rfl]
    · by_cases hk : k2 = k
      · subst hk
        exact absurd (mem_storeKeys_of_lookup (ih hknd.2 h1)) hknd.1
      · rw [lookupSlot, if_neg hk]
        exact ih hknd.2 h1

/-- `slots.retain` keeps exactly the marked addresses (in order) and
releases exactly the unmarked ones (in order), each once. -/
theorem sweep_kept_released {slots : List Nat} (hnd : slots.Nodup) (st : Store) :
    (sweep st slots).2.1 = slots.filter (fun a => isMarked st a) ∧
    (sweep st slots).2.2 = slots.filter (fun a => !isMarked st a) := by
  induction slots generalizing st with
  | nil => simp [sweep]
  | cons a rest ih =>
    have hna : a ∉ rest := (List.nodup_cons.mp hnd).1
    have hndr : rest.Nodup := (List.nodup_cons.mp hnd).2
    by_cases hm : isMarked st a
    · have heq : rest.filter (fun c => isMarked (setMark st a false) c) =
          rest.filter (fun c => isMarked st c) := by
        apply List.filter_congr
        intro c hc
        exact isMarked_setMark_ne st (fun hca => hna (by rw [← hca]; exact hc)) false
      have heq2 : rest.filter (fun c => !isMarked (setMark st a false) c) =
          rest.filter (fun c => !isMarked st c) := by
        apply List.filter_congr
        intro c hc
        rw [isMarked_setMark_ne st (fun hca => hna (by rw [← hca]; exact hc)) false]
      obtain ⟨ih1, ih2⟩ := ih hndr (setMark st a false)
      constructor
      · simp [sweep, hm, List.filter_cons, ih1, heq]
      · simp [sweep, hm, List.filter_cons, ih2, heq2]
    · have heq : rest.filter (fun c => isMarked (removeAddr st a) c) =
          rest.filter (fun c => isMarked st c) := by
        apply List.filter_congr
        intro c hc
        exact isMarked_removeAddr_ne st (fun hca => hna (by rw [← hca]; exact hc))
      have heq2 : rest.filter (fun c => !isMarked (removeAddr st a) c) =
          rest.filter (fun c => !isMarked st c) := by
        apply List.filter_congr
        intro c hc
        rw [isMarked_removeAddr_ne st (fun hca => hna (by rw [← hca]; exact hc))]
      obtain ⟨ih1, ih2⟩ := ih hndr (removeAddr st a)
      rw [Bool.not_eq_true] at hm
      constructor
      · simp [sweep, hm, List.filter_cons, ih1, heq]
      · simp [sweep, hm, List.filter_cons, ih2, heq2]

theorem storeKeys_nodup_setMark {st : Store} (h : (storeKeys st).Nodup)
    (a : Nat) (b : Bool) : (storeKeys (setMark st a b)).Nodup := by
  rwa [storeKeys_setMark]

theorem storeKeys_nodup_removeAddr {st : Store} (h : (storeKeys st).Nodup)
    (a : Nat) : (storeKeys (removeAddr st a)).Nodup :=
  (storeKeys_removeAddr_sublist st a).nodup h

/-- Full description of the store after the sweep: a slot listed and
marked survives with its mark cleared, a slot listed and unmarked is
gone, an unlisted address is untouched. -/
theorem sweep_lookup {slots : List Nat} (hnd : slots.Nodup) {st : Store}
    (hknd : (storeKeys st).Nodup) (c : Nat) :
    lookupSlot (sweep st slots).1 c =
      if c ∈ slots then
        (if isMarked st c then
          (lookupSlot st c).map (fun s => { s with mark := false })
         else none)
      else lookupSlot st c := by
  induction slots generalizing st with
  | nil => simp [sweep]
  | cons a rest ih =>
    have hna : a ∉ rest := (List.nodup_cons.mp hnd).1
    have hndr : rest.Nodup := (List.nodup_cons.mp hnd).2
    by_cases hm : isMarked st a
    · have hrec := ih hndr (storeKeys_nodup_setMark hknd a false)
      simp only [sweep, if_pos hm]
      rw [hrec]
      by_cases hca : c = a
      · subst hca
        rw [if_neg hna, if_pos (List.mem_cons_self _ _), if_pos hm,
          lookupSlot_setMark_self]
      · rw [lookupSlot_setMark_ne st hca, isMarked_setMark_ne st hca]
        by_cases hcr : c ∈ rest
        · rw [if_pos hcr, if_pos (List.mem_cons_of_mem _ hcr)]
        · rw [if_neg hcr, if_neg (by simp [hca, hcr])]
    · rw [Bool.not_eq_true] at hm
      have hrec := ih hndr (storeKeys_nodup_removeAddr hknd a)
      simp only [sweep, hm, Bool.false_eq_true, if_false]
      rw [hrec]
      by_cases hca : c = a
      · subst hca
        rw [if_neg hna, if_pos (List.mem_cons_self _ _), hm,
          lookupSlot_removeAddr_self hknd]
        simp
      · rw [lookupSlot_removeAddr_ne st hca, isMarked_removeAddr_ne st hca]
        by_cases hcr : c ∈ rest
        · rw [if_pos hcr, if_pos (List.mem_cons_of_mem _ hcr)]
        · rw [if_neg hcr, if_neg (by simp [hca, hcr])]

theorem sweep_keys_sublist (st : Store) (slots : List Nat) :
    (storeKeys (sweep st slots).1).Sublist (storeKeys st) := by
  induction slots generalizing st with
  | nil => simp [sweep]
  | cons a rest ih =>
    by_cases hm : isMarked st a
    · simp only [sweep, if_pos hm]
      exact (ih (setMark st a false)).trans (by rw [storeKeys_setMark])
    · rw [Bool.not_eq_true] at hm
      simp only [sweep, hm, Bool.false_eq_true, if_false]
      exact (ih (removeAddr st a)).trans (storeKeys_removeAddr_sublist st a)

theorem sweep_kept_sublist (st : Store) (slots : List Nat) :
    ((sweep st slots).2.1).Sublist slots := by
  induction slots generalizing st with
  | nil => simp [sweep]
  | cons a rest ih =>
    by_cases hm : isMarked st a
    · simp only [sweep, if_pos hm]
      exact List.Sublist.cons₂ _ (ih (setMark st a false))
    · rw [Bool.not_eq_true] at hm
      simp only [sweep, hm, Bool.false_eq_true, if_false]
      exact (ih (removeAddr st a)).cons _

theorem lookup_mem {st : Store} {a : Nat} {s : Slot}
    (h : lookupSlot st a = some s) : (a, s) ∈ st := by
  induction st with
  | nil => simp [lookupSlot] at h
  | cons p rest ih =>
    obtain ⟨k, s'⟩ := p
    simp only [lookupSlot] at h
    by_cases hk : k = a
    · rw [if_pos hk] at h
      have hs : s' = s := by injection h
      subst hk hs
      exact List.mem_cons_self _ _
    · rw [if_neg hk] at h
      exact List.mem_cons_of_mem _ (ih h)

/-! ### Collect-level lemmas -/

theorem isMarked_clear_of_WF {m : Memory} (hwf : m.WF) (d : Nat) :
    isMarked m.store d = false := by
  unfold isMarked
  cases hx : lookupSlot m.store d with
  | none => rfl
  | some s => exact hwf.marksClear _ (lookup_mem hx)

theorem hdom_of_WF {m : Memory} (hwf : m.WF) :
    ∀ x y, y ∈ getHoldeeAt m.store x → (lookupSlot m.store y).isSome := by
  intro x y hy
  cases hx : lookupSlot m.store x with
  | none => rw [getHoldeeAt_absent hx] at hy; simp at hy
  | some s =>
    have hxk : x ∈ m.slots := hwf.keys ▸ mem_storeKeys_of_lookup hx
    have hyk : y ∈ m.slots := hwf.holdeeClosed x hxk y hy
    rw [lookup_isSome_iff_mem_keys, hwf.keys]
    exact hyk

theorem keysNodup_of_WF {m : Memory} (hwf : m.WF) : (storeKeys m.store).Nodup := by
  rw [hwf.keys]; exact hwf.nodup

/-- Core of invariant 3 (claim C1): with an entry set, the slots that
survive `collect` are exactly the ones reachable from the entry, the
released list is exactly the unreachable ones, and each is released
exactly once. -/
theorem collect_characterisation {m : Memory} (hwf : m.WF) {e : Nat}
    (he : m.entry = some e) :
    (∀ a, a ∈ m.collect.slots ↔ a ∈ m.slots ∧ Reach m.store e a) ∧
    (∀ a, a ∈ m.collectAux.2 ↔ a ∈ m.slots ∧ ¬ Reach m.store e a) ∧
    m.collectAux.2.Nodup := by
  have hq : ∀ d ∈ m.entry.toList, (lookupSlot m.store d).isSome := by
    intro d hd
    rw [he] at hd
    simp only [Option.toList_some, List.mem_singleton] at hd
    subst hd
    rw [lookup_isSome_iff_mem_keys, hwf.keys]
    exact hwf.entryMem _ he
  have hexact : ∀ c, isMarked (markLoop m.store m.entry.toList) c = true ↔
      Reach m.store e c := by
    intro c
    rw [markLoop_exact (hdom_of_WF hwf) hq (isMarked_clear_of_WF hwf)]
    constructor
    · rintro ⟨r, hr, hre⟩
      rw [he] at hr
      simp only [Option.toList_some, List.mem_singleton] at hr
      exact hr ▸ hre
    · intro h
      exact ⟨e, by simp [he], h⟩
  obtain ⟨hkept, hrel⟩ :=
    sweep_kept_released hwf.nodup (markLoop m.store m.entry.toList)
  refine ⟨?_, ?_, ?_⟩
  · intro a
    show a ∈ (sweep (markLoop m.store m.entry.toList) m.slots).2.1 ↔ _
    rw [hkept, List.mem_filter]
    rw [hexact a]
  · intro a
    show a ∈ (sweep (markLoop m.store m.entry.toList) m.slots).2.2 ↔ _
    rw [hrel, List.mem_filter]
    rw [← hexact a]
    simp
  · show ((sweep (markLoop m.store m.entry.toList) m.slots).2.2).Nodup
    rw [hrel]
    exact hwf.nodup.filter _

/-- Claim C7 core: with no entry, the mark phase does nothing and the
sweep releases every slot. -/
theorem collect_no_entry {m : Memory} (hwf : m.WF) (he : m.entry = none) :
    m.collect.slots = [] ∧ m.collectAux.2 = m.slots := by
  obtain ⟨hkept, hrel⟩ :=
    sweep_kept_released hwf.nodup (markLoop m.store m.entry.toList)
  constructor
  · show (sweep (markLoop m.store m.entry.toList) m.slots).2.1 = []
    rw [hkept, List.filter_eq_nil_iff]
    intro a _
    rw [he]
    simp [markLoop_nil, isMarked_clear_of_WF hwf]
  · show (sweep (markLoop m.store m.entry.toList) m.slots).2.2 = m.slots
    rw [hrel]
    apply List.filter_eq_self.mpr
    intro a _
    rw [he]
    simp [markLoop_nil, isMarked_clear_of_WF hwf]

/-- Claim C9 core for `collect`: every slot box surviving the sweep has
its mark cleared. -/
theorem collect_marksClear {m : Memory} (hwf : m.WF) :
    ∀ p ∈ m.collect.store, p.2.mark = false := by
  intro p hp
  set st1 := markLoop m.store m.entry.toList with hst1
  have hknd1 : (storeKeys st1).Nodup := by
    rw [hst1, markLoop_keys]
    exact keysNodup_of_WF hwf
  have hkndf : (storeKeys (sweep st1 m.slots).1).Nodup :=
    (sweep_keys_sublist st1 m.slots).nodup hknd1
  have hlk : lookupSlot (sweep st1 m.slots).1 p.1 = some p.2 :=
    lookup_of_mem_nodup hkndf hp
  rw [sweep_lookup hwf.nodup hknd1] at hlk
  by_cases hmem : p.1 ∈ m.slots
  · rw [if_pos hmem] at hlk
    by_cases hmk : isMarked st1 p.1
    · rw [if_pos hmk] at hlk
      cases hx : lookupSlot st1 p.1 with
      | none => rw [hx] at hlk; exact Option.noConfusion hlk
      | some s =>
        rw [hx] at hlk
        have : { s with mark := false } = p.2 := by injection hlk
        rw [← this]
    · rw [if_neg hmk] at hlk
      exact Option.noConfusion hlk
  · rw [if_neg hmem] at hlk
    exfalso
    apply hmem
    have : p.1 ∈ storeKeys st1 := mem_storeKeys_of_lookup hlk
    rw [hst1, markLoop_keys, hwf.keys] at this
    exact this

/-! ### `setDual`, `Address::share` and `Memory::insert_dual` lemmas -/

theorem lookupSlot_setDual_self (st : Store) (a : Nat) (d : Dual) :
    lookupSlot (setDual st a d) a =
      (lookupSlot st a).map (fun s => { s with dual := d }) := by
  induction st with
  | nil => simp [setDual, lookupSlot]
  | cons p rest ih =>
    obtain ⟨k, s⟩ := p
    by_cases hk : k = a
    · simp [setDual, lookupSlot, hk]
    · simp [setDual, lookupSlot, hk, ih]

theorem lookupSlot_setDual_ne (st : Store) {a c : Nat} (h : c ≠ a) (d : Dual) :
    lookupSlot (setDual st a d) c = lookupSlot st c := by
  induction st with
  | nil => simp [setDual, lookupSlot]
  | cons p rest ih =>
    obtain ⟨k, s⟩ := p
    by_cases hk : k = a
    · subst hk
      have : ¬ k = c := fun hkc => h (hkc ▸ rfl)
      simp [setDual, lookupSlot, this]
    · by_cases hc : k = c
      · subst hc
        simp [setDual, lookupSlot, h, hk]
      · simp [setDual, lookupSlot, hk, hc, ih]

theorem setDual_noop {st : Store} {a : Nat} {s : Slot}
    (h : lookupSlot st a = some s) {d : Dual} (hd : s.dual = d) :
    setDual st a d = st := by
  induction st with
  | nil => simp [lookupSlot] at h
  | cons p rest ih =>
    obtain ⟨k, s'⟩ := p
    simp only [lookupSlot] at h
    by_cases hk : k = a
    · rw [if_pos hk] at h
      have hs : s' = s := by injection h
      subst hs
      simp [setDual, hk, ← hd]
    · rw [if_neg hk] at h
      simp [setDual, hk, ih h]

theorem storeKeys_setDual (st : Store) (a : Nat) (d : Dual) :
    storeKeys (setDual st a d) = storeKeys st := by
  induction st with
  | nil => rfl
  | cons p rest ih =>
    obtain ⟨k, s⟩ := p
    by_cases hk : k = a <;> simp [setDual, storeKeys, hk] <;>
      simpa [storeKeys] using ih

theorem setDual_marksClear (a : Nat) (d : Dual) : ∀ {st : Store},
    (∀ p ∈ st, p.2.mark = false) → ∀ p ∈ setDual st a d, p.2.mark = false := by
  intro st
  induction st with
  | nil => intro _; simp [setDual]
  | cons q rest ih =>
    obtain ⟨k, s⟩ := q
    intro h p hp
    by_cases hk : k = a
    · rw [setDual, if_pos hk] at hp
      rcases List.mem_cons.mp hp with h1 | h1
      · subst h1
        exact h (k, s) (List.mem_cons_self _ _)
      · exact h p (List.mem_cons_of_mem _ h1)
    · rw [setDual, if_neg hk] at hp
      rcases List.mem_cons.mp hp with h1 | h1
      · subst h1
        exact h _ (List.mem_cons_self _ _)
      · exact ih (fun q hq => h q (List.mem_cons_of_mem _ hq)) p h1

/-- Promotion of a slot that is already Shared: the cell is untouched
and the returned handle is a clone of the stored one. -/
theorem share_shared {st : Store} {a : Nat} {slot : Slot} {s : SyncObject}
    (h : lookupSlot st a = some slot) (hd : slot.dual = .Shared s) :
    Address.share a st = .ok (s, st) := by
  simp only [Address.share, h, hd, Dual.into_shared, SyncObject.clone]
  rw [setDual_noop h hd]

/-- Promotion of a Local slot whose payload's `to_sync` succeeds: the
cell is replaced in place by the Shared cell derived via
`Object::into_sync`, and the returned handle is a clone of it. -/
theorem share_local_ok {st : Store} {a : Nat} {slot : Slot} {obj : Object}
    {s : SyncObject} (h : lookupSlot st a = some slot)
    (hd : slot.dual = .Local obj) (hs : obj.into_sync = .ok s) :
    Address.share a st = .ok (s, setDual st a (.Shared s)) := by
  simp only [Address.share, h, hd, Dual.into_shared, hs, Except.map,
    SyncObject.clone]

/-- Promotion of a Local slot whose payload's `to_sync` refuses: the
error propagates (and the `ptr::write` is skipped — see `shareTrace`). -/
theorem share_local_err {st : Store} {a : Nat} {slot : Slot} {obj : Object}
    {e : Error} (h : lookupSlot st a = some slot)
    (hd : slot.dual = .Local obj) (hs : obj.into_sync = .error e) :
    Address.share a st = .error e := by
  simp only [Address.share, h, hd, Dual.into_shared, hs, Except.map]

theorem collect_slots_sublist (m : Memory) : m.collect.slots.Sublist m.slots :=
  sweep_kept_sublist _ _

theorem collect_n_slots_max (m : Memory) : m.collect.n_slots_max = m.n_slots_max := rfl

theorem collect_next (m : Memory) : m.collect.next = m.next := rfl

theorem collect_entry (m : Memory) : m.collect.entry = m.entry := rfl

theorem lookup_append_self {st : Store} {a : Nat} (h : a ∉ storeKeys st) (s : Slot) :
    lookupSlot (st ++ [(a, s)]) a = some s := by
  induction st with
  | nil => simp [lookupSlot]
  | cons p rest ih =>
    obtain ⟨k, s'⟩ := p
    simp only [storeKeys, List.map_cons, List.mem_cons] at h
    push_neg at h
    rw [List.cons_append, lookupSlot, if_neg (fun hk => h.1 hk.symm)]
    exact ih (by simpa [storeKeys] using h.2)

theorem collect_keys_sub (m : Memory) (hwf : m.WF) :
    ∀ k ∈ storeKeys m.collect.store, k ∈ m.slots := by
  intro k hk
  have h1 : k ∈ storeKeys (markLoop m.store m.entry.toList) :=
    (sweep_keys_sublist _ _).mem hk
  rw [markLoop_keys, hwf.keys] at h1
  exact h1

/-- Characterisation of `Memory::insert_dual` (claim C2 core): with the
count at or below the cap, a collection runs exactly when the count
equals the cap; the insertion succeeds iff the count is below the cap
after that collection, in which case a fresh address is appended, and
fails with `OutOfMemory` leaving the collected state otherwise. -/
theorem insert_dual_characterisation (m : Memory) (d : Dual)
    (hwf : m.WF) (hle : m.n_object ≤ m.n_slots_max) :
    ((m.insert_dual d).1.isOk ↔
      (if m.n_object = m.n_slots_max then m.collect else m).n_object <
        m.n_slots_max) ∧
    (¬ (m.insert_dual d).1.isOk →
      m.insert_dual d =
        (.error .outOfMemory,
         if m.n_object = m.n_slots_max then m.collect else m)) ∧
    (∀ a, (m.insert_dual d).1 = .ok a →
      a = m.next ∧
      a ∉ (if m.n_object = m.n_slots_max then m.collect else m).slots ∧
      (m.insert_dual d).2.slots =
        (if m.n_object = m.n_slots_max then m.collect else m).slots ++ [a] ∧
      lookupSlot (m.insert_dual d).2.store a = some (Slot.new d)) := by
  set m1 := if m.n_object = m.n_slots_max then m.collect else m with hm1
  have hmax : m1.n_slots_max = m.n_slots_max := by
    rw [hm1]; split <;> rfl
  have hnext : m1.next = m.next := by
    rw [hm1]; split <;> rfl
  have hsub : m1.slots.Sublist m.slots := by
    rw [hm1]; split
    · exact collect_slots_sublist m
    · exact List.Sublist.refl _
  have hksub : ∀ k ∈ storeKeys m1.store, k ∈ m.slots := by
    rw [hm1]; split
    · exact collect_keys_sub m hwf
    · intro k hk
      rwa [hwf.keys] at hk
  have hfresh : m.next ∉ storeKeys m1.store := by
    intro hmem
    exact absurd (hwf.fresh _ (hksub _ hmem)) (lt_irrefl _)
  have hfresh2 : m.next ∉ m1.slots := by
    intro hmem
    exact absurd (hwf.fresh _ (hsub.mem hmem)) (lt_irrefl _)
  have hunfold : m.insert_dual d =
      if m1.n_object = m1.n_slots_max then (.error .outOfMemory, m1)
      else
        (.ok m1.next,
         { m1 with
           store := m1.store ++ [(m1.next, Slot.new d)]
           slots := m1.slots ++ [m1.next]
           next := m1.next + 1 }) := by
    rw [Memory.insert_dual, hm1]
  by_cases hfull : m1.n_object = m1.n_slots_max
  · rw [hunfold, if_pos hfull]
    refine ⟨?_, fun _ => rfl, ?_⟩
    · simp only [Except.isOk, Except.toBool]
      rw [hmax] at hfull
      simp [Memory.n_object] at hfull ⊢
      omega
    · intro a ha
      exact absurd ha (by simp)
  · rw [hunfold, if_neg hfull]
    refine ⟨?_, ?_, ?_⟩
    · simp only [Except.isOk, Except.toBool]
      rw [hmax] at hfull
      constructor
      · intro _
        rcases Nat.lt_or_ge m1.n_object m.n_slots_max with h | h
        · exact h
        · exfalso
          apply hfull
          have : m1.n_object ≤ m.n_object := hsub.length_le
          omega
      · intro _
        trivial
    · intro hno
      simp [Except.isOk, Except.toBool] at hno
    · intro a ha
      have haeq : a = m1.next := by
        simpa using ha.symm
      have hfresh' : m1.next ∉ storeKeys m1.store := hnext ▸ hfresh
      have hfresh2' : m1.next ∉ m1.slots := hnext ▸ hfresh2
      exact ⟨by rw [haeq, hnext], by rw [haeq]; exact hfresh2',
        by rw [haeq], by rw [haeq]; exact lookup_append_self hfresh' (Slot.new d)⟩

theorem marksClear_append_new {st : Store}
    (h : ∀ p ∈ st, p.2.mark = false) (a : Nat) (d : Dual) :
    ∀ p ∈ st ++ [(a, Slot.new d)], p.2.mark = false := by
  intro p hp
  rcases List.mem_append.mp hp with h1 | h1
  · exact h p h1
  · simp only [List.mem_singleton] at h1
    subst h1
    rfl

/-- Mark bits stay clear across `insert_dual` (claim C9). -/
theorem insert_dual_marksClear (m : Memory) (d : Dual) (hwf : m.WF) :
    ∀ p ∈ (m.insert_dual d).2.store, p.2.mark = false := by
  have h1 : ∀ p ∈ m.collect.store, p.2.mark = false := collect_marksClear hwf
  have h2 := hwf.marksClear
  rw [Memory.insert_dual]
  by_cases hc : m.n_object = m.n_slots_max
  · simp only [if_pos hc]
    split
    · exact h1
    · exact marksClear_append_new h1 _ _
  · simp only [if_neg hc]
    exact marksClear_append_new h2 _ _

/-- Mark bits stay clear across `Address::share` (claim C9): promotion
only rewrites the cell, never the mark. -/
theorem share_marksClear {st : Store} (h : ∀ p ∈ st, p.2.mark = false)
    (a : Nat) {s : SyncObject} {st' : Store}
    (hres : Address.share a st = .ok (s, st')) :
    ∀ p ∈ st', p.2.mark = false := by
  unfold Address.share at hres
  cases hx : lookupSlot st a with
  | none =>
    simp only [hx] at hres
    exact Except.noConfusion hres
  | some slot =>
    simp only [hx] at hres
    cases hd : slot.dual.into_shared with
    | error e =>
      simp only [hd] at hres
      exact Except.noConfusion hres
    | ok d =>
      simp only [hd] at hres
      cases d with
      | Local obj => exact Except.noConfusion hres
      | Shared s2 =>
        have : st' = setDual st a (.Shared s2) := by
          injection hres with h1
          injection h1 with _ h2
          exact h2.symm
        rw [this]
        exact setDual_marksClear a _ h

/-! ## Modelled from the spec: Frames and the Runtime (§4.3, §4.5)

The frame-based `Runtime`, `Method` and `RuntimeBuilder` that
`src/objects/thread.rs` calls are not under `src/` (only this caller
is), so they are modelled from the spec: a Frame is a heap object
holding a context address, an ordered operand stack of addresses (top
of stack at the head of the list), and an optional parent-frame
address; a Runtime is a heap plus an ordered stack of frame addresses
whose head is the current frame. -/

/-- Modelled from the spec: `Runtime` (§4.5), a heap plus a frame
stack; the current frame is at the head. -/
structure Runtime where
  memory : Memory
  frames : List Nat

/-- Read the Frame payload stored at a heap address (context, stack,
parent); `none` when the address does not hold a Local Frame. -/
def readFrame (st : Store) (a : Nat) : Option (Nat × List Nat × Option Nat) :=
  match dualAt st a with
  | some (.Local obj) =>
    match obj.content with
    | .frame c s p => some (c, s, p)
    | _ => none
  | _ => none

/-- Overwrite the Frame payload at a heap address (a `get_mut` followed
by in-place mutation of the Frame struct). -/
def writeFrame (m : Memory) (a : Nat) (c : Nat) (s : List Nat) (p : Option Nat) :
    Memory :=
  { m with store := setDual m.store a (.Local (Object.new .frame (c, s, p))) }

/-- Modelled from the spec: `Runtime::context` — the current frame's
context address (an infallible accessor; `0` stands for the
unreachable no-frame case). -/
def Runtime.context (r : Runtime) : Nat :=
  match r.frames.head? with
  | some fa =>
    match readFrame r.memory.store fa with
    | some (c, _, _) => c
    | none => 0
  | none => 0

/-- Modelled from the spec: `Runtime::push` — append to the current
frame's operand stack. -/
def Runtime.push (r : Runtime) (x : Nat) : Runtime :=
  match r.frames.head? with
  | some fa =>
    match readFrame r.memory.store fa with
    | some (c, s, p) => { r with memory := writeFrame r.memory fa c (x :: s) p }
    | none => r
  | none => r

/-- Modelled from the spec: `Runtime::pop` — remove the top of the
current frame's stack; `ExhaustedFrame` if it is empty. -/
def Runtime.pop (r : Runtime) : Except Error Runtime :=
  match r.frames.head? with
  | some fa =>
    match readFrame r.memory.store fa with
    | some (c, s, p) =>
      match s with
      | [] => .error .exhaustedFrame
      | _ :: s' => .ok { r with memory := writeFrame r.memory fa c s' p }
    | none => .error .exhaustedFrame
  | none => .error .exhaustedFrame

/-- Modelled from the spec: `Runtime::get` — the i-th address from the
top of the current frame's stack, 1-based; `ExhaustedFrame` when out of
range. -/
def Runtime.get (r : Runtime) (i : Nat) : Except Error Nat :=
  match r.frames.head? with
  | some fa =>
    match readFrame r.memory.store fa with
    | some (_, s, _) =>
      match s.get? (i - 1) with
      | some x => .ok x
      | none => .error .exhaustedFrame
    | none => .error .exhaustedFrame
  | none => .error .exhaustedFrame

/-- Modelled from the spec: `Runtime::push_parent i` — copy the i-th
top address of the current frame onto the parent frame's stack;
`NoParentFrame` without a parent, `ExhaustedFrame` when out of range. -/
def Runtime.push_parent (r : Runtime) (i : Nat) : Except Error Runtime :=
  match r.frames.head? with
  | some fa =>
    match readFrame r.memory.store fa with
    | some (_, s, p) =>
      match p with
      | none => .error .noParentFrame
      | some pa =>
        match s.get? (i - 1) with
        | none => .error .exhaustedFrame
        | some v =>
          match readFrame r.memory.store pa with
          | some (pc, ps, pp) =>
            .ok { r with memory := writeFrame r.memory pa pc (v :: ps) pp }
          | none => .error .exhaustedFrame
    | none => .error .exhaustedFrame
  | none => .error .exhaustedFrame

/-- Modelled from the spec: `RuntimeBuilder::new(memory, method).boot()`
(§4.5 Boot) — allocate the initial Frame with the given context and no
parent, set it as the heap's entry, and make it the only frame. -/
def RuntimeBuilder.boot (m : Memory) (contextAddr : Nat) : Except Error Runtime :=
  match m.insert_local (Object.new .frame (contextAddr, [], none)) with
  | (.error e, _) => .error e
  | (.ok fa, m1) => .ok { memory := m1.set_entry fa, frames := [fa] }

/-! ## `src/objects/thread.rs`: argument and result marshalling -/

/-- The argument-collection loop of `make_thread`:
`while let Ok(address) = runtime.get(1) { runtime.pop()?;
args.push(address.share()?); }` — walk the operand stack from the top,
promoting each address.  The returned list is in collection order
(caller's top of stack first). -/
def collectArgsList (st : Store) : List Nat → Except Error (List SyncObject × Store)
  | [] => .ok ([], st)
  | a :: rest =>
    match Address.share a st with
    | .error e => .error e
    | .ok (s, st') =>
      match collectArgsList st' rest with
      | .error e => .error e
      | .ok (args, st'') => .ok (s :: args, st'')

/-- The re-insertion loop run by the worker:
`for arg in args.into_iter().rev() { let shared_arg =
runtime.memory.insert_shared(arg)?; runtime.push(shared_arg); }`. -/
def pushSharedAll (r : Runtime) : List SyncObject → Except Error Runtime
  | [] => .ok r
  | s :: rest =>
    match r.memory.insert_shared s with
    | (.error e, _) => .error e
    | (.ok a, m') => pushSharedAll (Runtime.push { r with memory := m' } a) rest

/-- The worker-thread prologue of `make_thread`: fresh 1024-slot heap,
insert the shared method, boot a runtime on it, then re-insert and push
the collected shared arguments in reverse collection order. -/
def workerBoot (syncMethod : SyncObject) (sargs : List SyncObject) :
    Except Error Runtime :=
  let memory := Memory.new 1024
  match memory.insert_shared syncMethod with
  | (.error e, _) => .error e
  | (.ok methodAddr, m1) =>
    match RuntimeBuilder.boot m1 methodAddr with
    | .error e => .error e
    | .ok r => pushSharedAll r sargs.reverse

/-- The worker's result-collection loop of `make_thread`:
`for _ in 0..result_count { shared_results.push(runtime.get(1)?.share()?);
runtime.pop()?; }` — results are collected top-down. -/
def collectResults (r : Runtime) : Nat → Except Error (List SyncObject × Runtime)
  | 0 => .ok ([], r)
  | n + 1 =>
    match r.get 1 with
    | .error e => .error e
    | .ok a =>
      match Address.share a r.memory.store with
      | .error e => .error e
      | .ok (s, st') =>
        match Runtime.pop { r with memory := { r.memory with store := st' } } with
        | .error e => .error e
        | .ok r' =>
          match collectResults r' n with
          | .error e => .error e
          | .ok (rest, r'') => .ok (s :: rest, r'')

/-- The delivery loop of `make_join`: `for result_object in
results.into_iter().rev() { let result =
runtime.memory.insert_shared(result_object)?; runtime.push(result);
runtime.push_parent(1)?; }`. -/
def deliverLoop (r : Runtime) : List SyncObject → Except Error Runtime
  | [] => .ok r
  | s :: rest =>
    match r.memory.insert_shared s with
    | (.error e, _) => .error e
    | (.ok a, m') =>
      match (Runtime.push { r with memory := m' } a).push_parent 1 with
      | .error e => .error e
      | .ok r2 => deliverLoop r2 rest

/-- `make_join` delivers the worker's results in reverse collection
order. -/
def deliverResults (r : Runtime) (results : List SyncObject) : Except Error Runtime :=
  deliverLoop r results.reverse

/-- Outcome of invoking a method body: a value, a recoverable error,
or a panic. -/
inductive Outcome (α : Type) where
  | ok (val : α)
  | err (e : Error)
  | panicked
  deriving DecidableEq, Repr

/-- The consumption discipline of `make_join`'s body on its `Join`
context: read the `Option<JoinHandle>`; if it is already `None` the
source executes `unimplemented!()` — a panic, not an `Error` — and
otherwise takes the handle (leaving `None` behind), awaits the worker
(`handle.join().unwrap()?`), and propagates the worker's own error if
any.  The pending handle is modelled by the worker's eventual
outcome. -/
def joinStep (j : Option (Except Error (List SyncObject))) :
    Outcome (List SyncObject) × Option (Except Error (List SyncObject)) :=
  match j with
  | none => (.panicked, none)
  | some w =>
    match w with
    | .error e => (.err e, none)
    | .ok rs => (.ok rs, none)

/-! ### Marshalling lemmas for the thread primitive -/

/-- The shared payload an address denotes after promotion: for a Shared
slot the stored handle, for a Local slot the handle `to_sync` would
produce. -/
def origShare (st : Store) (a : Nat) : Option SyncObject :=
  match lookupSlot st a with
  | some slot =>
    match slot.dual with
    | .Local obj => (obj.into_sync).toOption
    | .Shared s => some s
  | none => none

/-- The shared payload stored at an address (none for Local slots). -/
def sharedAt (st : Store) (a : Nat) : Option SyncObject :=
  match lookupSlot st a with
  | some slot =>
    match slot.dual with
    | .Shared s => some s
    | .Local _ => none
  | none => none

theorem share_of_origShare {st : Store} {a : Nat} {s : SyncObject}
    (h : origShare st a = some s) :
    ∃ st', Address.share a st = .ok (s, st') ∧
      ∀ b, origShare st' b = origShare st b := by
  unfold origShare at h
  cases hx : lookupSlot st a with
  | none => rw [hx] at h; exact Option.noConfusion h
  | some slot =>
    simp only [hx] at h
    cases hd : slot.dual with
    | Shared s0 =>
      simp only [hd] at h
      have hs : s0 = s := by injection h
      subst hs
      exact ⟨st, share_shared hx hd, fun b => rfl⟩
    | Local obj =>
      simp only [hd] at h
      cases hi : obj.into_sync with
      | error e => rw [hi] at h; exact Option.noConfusion h
      | ok s0 =>
        rw [hi] at h
        simp only [Except.toOption] at h
        have hs : s0 = s := by injection h
        subst hs
        refine ⟨setDual st a (.Shared s0), share_local_ok hx hd hi, ?_⟩
        intro b
        by_cases hb : b = a
        · subst hb
          unfold origShare
          rw [lookupSlot_setDual_self, hx]
          simp [hd, hi, Except.toOption]
        · unfold origShare
          rw [lookupSlot_setDual_ne st hb]

/-- The argument-collection loop promotes exactly the stack's
addresses, in top-down collection order. -/
theorem collectArgsList_spec : ∀ (stk : List Nat) (st : Store),
    (∀ a ∈ stk, (origShare st a).isSome) →
    ∃ args st', collectArgsList st stk = .ok (args, st') ∧
      stk.map (origShare st) = args.map some ∧
      ∀ b, origShare st' b = origShare st b := by
  intro stk
  induction stk with
  | nil => exact fun st _ => ⟨[], st, rfl, rfl, fun _ => rfl⟩
  | cons a rest ih =>
    intro st hall
    obtain ⟨s, hs⟩ := Option.isSome_iff_exists.mp (hall a (List.mem_cons_self _ _))
    obtain ⟨st1, hshare, hinv⟩ := share_of_origShare hs
    obtain ⟨args, st2, hrec, hmap, hinv2⟩ := ih st1 (by
      intro b hb
      rw [hinv b]
      exact hall b (List.mem_cons_of_mem _ hb))
    refine ⟨s :: args, st2, ?_, ?_, ?_⟩
    · simp only [collectArgsList, hshare, hrec]
    · simp only [List.map_cons, hs, List.map_cons]
      congr 1
      rw [← hmap]
      apply List.map_congr_left
      intro b hb
      rw [hinv b]
    · intro b
      rw [hinv2 b, hinv b]

theorem lookup_append_left {st : Store} {c : Nat} {s : Slot}
    (h : lookupSlot st c = some s) (l : Store) :
    lookupSlot (st ++ l) c = some s := by
  induction st with
  | nil => simp [lookupSlot] at h
  | cons p rest ih =>
    obtain ⟨k, s'⟩ := p
    rw [List.cons_append]
    rw [lookupSlot] at h ⊢
    by_cases hk : k = c
    · rwa [if_pos hk] at h ⊢
    · rw [if_neg hk] at h ⊢
      exact ih h

theorem readFrame_append {st : Store} {fa : Nat} {slot : Slot}
    (h : lookupSlot st fa = some slot) (l : Store) :
    readFrame (st ++ l) fa = readFrame st fa := by
  unfold readFrame dualAt
  rw [h, lookup_append_left h]

theorem readFrame_setDual_ne {st : Store} {a fa : Nat} (h : fa ≠ a) (d : Dual) :
    readFrame (setDual st a d) fa = readFrame st fa := by
  unfold readFrame dualAt
  rw [lookupSlot_setDual_ne st h]

theorem readFrame_writeFrame_self {m : Memory} {fa : Nat} {slot : Slot}
    (h : lookupSlot m.store fa = some slot) (c : Nat) (s : List Nat)
    (p : Option Nat) :
    readFrame (writeFrame m fa c s p).store fa = some (c, s, p) := by
  unfold writeFrame readFrame dualAt
  rw [lookupSlot_setDual_self, h]
  rfl

theorem sharedAt_setDual_ne {st : Store} {a b : Nat} (h : b ≠ a) (d : Dual) :
    sharedAt (setDual st a d) b = sharedAt st b := by
  unfold sharedAt
  rw [lookupSlot_setDual_ne st h]

/-- Unfolding of `insert_dual` when the heap is not at the cap: no
collection, a fresh slot is appended. -/
theorem insert_dual_not_full (m : Memory) (d : Dual)
    (h : ¬ m.n_object = m.n_slots_max) :
    m.insert_dual d = (.ok m.next,
      { m with store := m.store ++ [(m.next, Slot.new d)],
               slots := m.slots ++ [m.next], next := m.next + 1 }) := by
  rw [Memory.insert_dual]
  simp only [if_neg h]

/-- The worker's re-insertion loop: pushes the addresses of the given
shared payloads onto the current frame, last list element ending on
top. -/
theorem pushSharedAll_spec : ∀ (lst : List SyncObject) (r : Runtime)
    (fa cctx : Nat) (cs : List Nat) (p : Option Nat),
    r.frames.head? = some fa →
    readFrame r.memory.store fa = some (cctx, cs, p) →
    (∀ k ∈ storeKeys r.memory.store, k < r.memory.next) →
    r.memory.n_object + lst.length ≤ r.memory.n_slots_max →
    ∃ r' outAddrs, pushSharedAll r lst = .ok r' ∧
      r'.frames = r.frames ∧
      readFrame r'.memory.store fa = some (cctx, outAddrs ++ cs, p) ∧
      outAddrs.map (sharedAt r'.memory.store) = (lst.map some).reverse ∧
      (∀ b s0, b ≠ fa → lookupSlot r.memory.store b = some s0 →
        lookupSlot r'.memory.store b = some s0) := by
  intro lst
  induction lst with
  | nil =>
    intro r fa cctx cs p hhead hfa _ _
    exact ⟨r, [], rfl, rfl, hfa, rfl, fun b s0 _ hb => hb⟩
  | cons s rest ih =>
    intro r fa cctx cs p hhead hfa hkeys hcap
    -- the slot behind the current frame
    have hfaslot : ∃ slot, lookupSlot r.memory.store fa = some slot := by
      unfold readFrame dualAt at hfa
      cases hx : lookupSlot r.memory.store fa with
      | none => rw [hx] at hfa; exact Option.noConfusion hfa
      | some slot => exact ⟨slot, rfl⟩
    obtain ⟨faslot, hfaslot⟩ := hfaslot
    have hfa_lt : fa < r.memory.next :=
      hkeys fa (mem_storeKeys_of_lookup hfaslot)
    -- the insertion does not collect
    have hnotfull : ¬ r.memory.n_object = r.memory.n_slots_max := by
      simp only [List.length_cons] at hcap
      omega
    have hins := insert_dual_not_full r.memory (.Shared s) hnotfull
    set a := r.memory.next with ha
    set m1 : Memory :=
      { r.memory with
        store := r.memory.store ++ [(a, Slot.new (.Shared s))],
        slots := r.memory.slots ++ [a], next := a + 1 } with hm1
    have hlk_a : lookupSlot m1.store a = some (Slot.new (.Shared s)) := by
      apply lookup_append_self
      intro hmem
      exact absurd (hkeys _ hmem) (lt_irrefl _)
    have hlk_fa1 : lookupSlot m1.store fa = some faslot :=
      lookup_append_left hfaslot _
    have hrf1 : readFrame m1.store fa = some (cctx, cs, p) := by
      show readFrame (r.memory.store ++ _) fa = _
      rw [readFrame_append hfaslot]
      exact hfa
    -- the push rewrites the frame slot
    have hpush : Runtime.push { r with memory := m1 } a =
        { r with memory := writeFrame m1 fa cctx (a :: cs) p } := by
      unfold Runtime.push
      simp only [hhead, hrf1]
    set m2 := writeFrame m1 fa cctx (a :: cs) p with hm2
    have hfane : fa ≠ a := by omega
    have hane : a ≠ fa := by omega
    have hrf2 : readFrame m2.store fa = some (cctx, a :: cs, p) :=
      readFrame_writeFrame_self hlk_fa1 _ _ _
    have hkeys2 : ∀ k ∈ storeKeys m2.store, k < m2.next := by
      intro k hk
      rw [hm2] at hk ⊢
      unfold writeFrame at hk ⊢
      rw [storeKeys_setDual] at hk
      show k < a + 1
      rw [hm1] at hk
      simp only [storeKeys, List.map_append, List.mem_append] at hk
      rcases hk with hk | hk
      · have := hkeys k hk
        omega
      · simp only [List.map_cons, List.map_nil, List.mem_singleton] at hk
        omega
    have hcap2 : m2.n_object + rest.length ≤ m2.n_slots_max := by
      show (r.memory.slots ++ [a]).length + rest.length ≤ r.memory.n_slots_max
      simp only [List.length_append, List.length_singleton]
      simp only [List.length_cons] at hcap
      have : r.memory.n_object = r.memory.slots.length := rfl
      omega
    have hlk_a2 : lookupSlot m2.store a = some (Slot.new (.Shared s)) := by
      rw [hm2]
      unfold writeFrame
      rw [lookupSlot_setDual_ne _ hane]
      exact hlk_a
    obtain ⟨r', outAddrs, hrun, hframes, hrf', hmap, hpres⟩ :=
      ih { r with memory := m2 } fa cctx (a :: cs) p hhead hrf2 hkeys2 hcap2
    have hlk_a' : lookupSlot r'.memory.store a = some (Slot.new (.Shared s)) :=
      hpres a _ hane hlk_a2
    have hsharedA : sharedAt r'.memory.store a = some s := by
      unfold sharedAt
      rw [hlk_a']
      rfl
    refine ⟨r', outAddrs ++ [a], ?_, hframes, ?_, ?_, ?_⟩
    · show pushSharedAll r (s :: rest) = .ok r'
      rw [pushSharedAll]
      show (match r.memory.insert_dual (.Shared s) with
        | (.error e, _) => Except.error e
        | (.ok a2, m') => pushSharedAll (Runtime.push { r with memory := m' } a2) rest) = _
      rw [hins]
      show pushSharedAll (Runtime.push { r with memory := m1 } a) rest = _
      rw [hpush]
      exact hrun
    · rw [List.append_assoc]
      simpa using hrf'
    · rw [List.map_append, hmap]
      simp only [List.map_cons, List.reverse_cons, List.map_nil]
      rw [hsharedA]
    · intro b s0 hbfa hlkb
      apply hpres b s0 hbfa
      rw [hm2]
      unfold writeFrame
      rw [lookupSlot_setDual_ne _ hbfa]
      exact lookup_append_left hlkb _

/-- The join-side delivery loop: each shared result is inserted,
pushed onto the join method's frame, and copied to the parent frame
with `push_parent(1)`; after the loop the parent's stack has gained the
addresses of the payloads in reverse iteration order. -/
theorem deliverLoop_spec : ∀ (lst : List SyncObject) (r : Runtime)
    (fa pa cctx pc : Nat) (cs ps : List Nat) (pp : Option Nat),
    r.frames.head? = some fa →
    fa ≠ pa →
    readFrame r.memory.store fa = some (cctx, cs, some pa) →
    readFrame r.memory.store pa = some (pc, ps, pp) →
    (∀ k ∈ storeKeys r.memory.store, k < r.memory.next) →
    r.memory.n_object + lst.length ≤ r.memory.n_slots_max →
    ∃ r' outAddrs, deliverLoop r lst = .ok r' ∧
      r'.frames = r.frames ∧
      readFrame r'.memory.store pa = some (pc, outAddrs ++ ps, pp) ∧
      outAddrs.map (sharedAt r'.memory.store) = (lst.map some).reverse ∧
      (∀ b s0, b ≠ fa → b ≠ pa → lookupSlot r.memory.store b = some s0 →
        lookupSlot r'.memory.store b = some s0) := by
  intro lst
  induction lst with
  | nil =>
    intro r fa pa cctx pc cs ps pp hhead hne hfa hpa _ _
    exact ⟨r, [], rfl, rfl, hpa, rfl, fun b s0 _ _ hb => hb⟩
  | cons s rest ih =>
    intro r fa pa cctx pc cs ps pp hhead hne hfa hpa hkeys hcap
    have hfaslot : ∃ slot, lookupSlot r.memory.store fa = some slot := by
      unfold readFrame dualAt at hfa
      cases hx : lookupSlot r.memory.store fa with
      | none => rw [hx] at hfa; exact Option.noConfusion hfa
      | some slot => exact ⟨slot, rfl⟩
    obtain ⟨faslot, hfaslot⟩ := hfaslot
    have hpaslot : ∃ slot, lookupSlot r.memory.store pa = some slot := by
      unfold readFrame dualAt at hpa
      cases hx : lookupSlot r.memory.store pa with
      | none => rw [hx] at hpa; exact Option.noConfusion hpa
      | some slot => exact ⟨slot, rfl⟩
    obtain ⟨paslot, hpaslot⟩ := hpaslot
    have hfa_lt : fa < r.memory.next :=
      hkeys fa (mem_storeKeys_of_lookup hfaslot)
    have hpa_lt : pa < r.memory.next :=
      hkeys pa (mem_storeKeys_of_lookup hpaslot)
    have hnotfull : ¬ r.memory.n_object = r.memory.n_slots_max := by
      simp only [List.length_cons] at hcap
      omega
    have hins := insert_dual_not_full r.memory (.Shared s) hnotfull
    set a := r.memory.next with ha
    set m1 : Memory :=
      { r.memory with
        store := r.memory.store ++ [(a, Slot.new (.Shared s))],
        slots := r.memory.slots ++ [a], next := a + 1 } with hm1
    have hane_fa : a ≠ fa := by omega
    have hane_pa : a ≠ pa := by omega
    have hlk_a : lookupSlot m1.store a = some (Slot.new (.Shared s)) := by
      apply lookup_append_self
      intro hmem
      exact absurd (hkeys _ hmem) (lt_irrefl _)
    have hlk_fa1 : lookupSlot m1.store fa = some faslot :=
      lookup_append_left hfaslot _
    have hlk_pa1 : lookupSlot m1.store pa = some paslot :=
      lookup_append_left hpaslot _
    have hrf1 : readFrame m1.store fa = some (cctx, cs, some pa) := by
      show readFrame (r.memory.store ++ _) fa = _
      rw [readFrame_append hfaslot]
      exact hfa
    have hrp1 : readFrame m1.store pa = some (pc, ps, pp) := by
      show readFrame (r.memory.store ++ _) pa = _
      rw [readFrame_append hpaslot]
      exact hpa
    have hpush : Runtime.push { r with memory := m1 } a =
        { r with memory := writeFrame m1 fa cctx (a :: cs) (some pa) } := by
      unfold Runtime.push
      simp only [hhead, hrf1]
    set m2 := writeFrame m1 fa cctx (a :: cs) (some pa) with hm2
    have hrf2 : readFrame m2.store fa = some (cctx, a :: cs, some pa) :=
      readFrame_writeFrame_self hlk_fa1 _ _ _
    have hlk_pa2 : lookupSlot m2.store pa = some paslot := by
      rw [hm2]
      unfold writeFrame
      rw [lookupSlot_setDual_ne _ (Ne.symm hne)]
      exact hlk_pa1
    have hrp2 : readFrame m2.store pa = some (pc, ps, pp) := by
      rw [hm2]
      show readFrame (setDual m1.store fa _) pa = _
      rw [readFrame_setDual_ne (Ne.symm hne)]
      exact hrp1
    have hppar : Runtime.push_parent { r with memory := m2 } 1 =
        .ok { r with memory := writeFrame m2 pa pc (a :: ps) pp } := by
      unfold Runtime.push_parent
      simp only [hhead, hrf2, hrp2]
      rfl
    set m3 := writeFrame m2 pa pc (a :: ps) pp with hm3
    have hrf3 : readFrame m3.store fa = some (cctx, a :: cs, some pa) := by
      rw [hm3]
      show readFrame (setDual m2.store pa _) fa = _
      rw [readFrame_setDual_ne hne]
      exact hrf2
    have hrp3 : readFrame m3.store pa = some (pc, a :: ps, pp) :=
      readFrame_writeFrame_self hlk_pa2 _ _ _
    have hlk_a3 : lookupSlot m3.store a = some (Slot.new (.Shared s)) := by
      rw [hm3, hm2]
      unfold writeFrame
      rw [lookupSlot_setDual_ne _ hane_pa, lookupSlot_setDual_ne _ hane_fa]
      exact hlk_a
    have hkeys3 : ∀ k ∈ storeKeys m3.store, k < m3.next := by
      intro k hk
      rw [hm3, hm2] at hk
      unfold writeFrame at hk
      rw [storeKeys_setDual, storeKeys_setDual] at hk
      show k < a + 1
      rw [hm1] at hk
      simp only [storeKeys, List.map_append, List.mem_append] at hk
      rcases hk with hk | hk
      · have := hkeys k hk
        omega
      · simp only [List.map_cons, List.map_nil, List.mem_singleton] at hk
        omega
    have hcap3 : m3.n_object + rest.length ≤ m3.n_slots_max := by
      show (r.memory.slots ++ [a]).length + rest.length ≤ r.memory.n_slots_max
      simp only [List.length_append, List.length_singleton]
      simp only [List.length_cons] at hcap
      have : r.memory.n_object = r.memory.slots.length := rfl
      omega
    obtain ⟨r', outAddrs, hrun, hframes, hrp', hmap, hpres⟩ :=
      ih { r with memory := m3 } fa pa cctx pc (a :: cs) (a :: ps) pp
        hhead hne hrf3 hrp3 hkeys3 hcap3
    have hlk_a' : lookupSlot r'.memory.store a = some (Slot.new (.Shared s)) :=
      hpres a _ hane_fa hane_pa hlk_a3
    have hsharedA : sharedAt r'.memory.store a = some s := by
      unfold sharedAt
      rw [hlk_a']
      rfl
    refine ⟨r', outAddrs ++ [a], ?_, hframes, ?_, ?_, ?_⟩
    · show deliverLoop r (s :: rest) = .ok r'
      rw [deliverLoop]
      show (match r.memory.insert_dual (.Shared s) with
        | (.error e, _) => Except.error e
        | (.ok a2, m') =>
          match (Runtime.push { r with memory := m' } a2).push_parent 1 with
          | .error e => .error e
          | .ok r2 => deliverLoop r2 rest) = _
      rw [hins]
      show (match (Runtime.push { r with memory := m1 } a).push_parent 1 with
        | .error e => Except.error e
        | .ok r2 => deliverLoop r2 rest) = _
      rw [hpush, hppar]
      exact hrun
    · rw [List.append_assoc]
      simpa using hrp'
    · rw [List.map_append, hmap]
      simp only [List.map_cons, List.reverse_cons, List.map_nil]
      rw [hsharedA]
    · intro b s0 hbfa hbpa hlkb
      apply hpres b s0 hbfa hbpa
      rw [hm3, hm2]
      unfold writeFrame
      rw [lookupSlot_setDual_ne _ hbpa, lookupSlot_setDual_ne _ hbfa]
      exact lookup_append_left hlkb _

/-- The heap and runtime state of the worker right after boot: the
shared method at address 0, the boot frame (context 0, empty stack, no
parent) at address 1, which is also the entry and only frame. -/
def workerInitRuntime (sm : SyncObject) : Runtime :=
  { memory :=
      { store := [(0, Slot.new (.Shared sm)),
                  (1, Slot.new (.Local (Object.new .frame (0, [], none))))],
        slots := [0, 1], n_slots_max := 1024, entry := some 1, next := 2 },
    frames := [1] }

theorem workerBoot_eq (sm : SyncObject) (sargs : List SyncObject) :
    workerBoot sm sargs = pushSharedAll (workerInitRuntime sm) sargs.reverse := rfl

/-- The worker prologue seen end to end: a fresh 1024-slot heap
receives the shared method at address 0 and the boot frame at address
1, and after the reverse-order re-insertion loop the boot frame's
operand stack holds, top first, addresses denoting exactly the
collected shared arguments in collection order. -/
theorem workerBoot_spec (sm : SyncObject) (sargs : List SyncObject)
    (hn : sargs.length ≤ 1022) :
    ∃ rw ws, workerBoot sm sargs = .ok rw ∧
      rw.frames = [1] ∧
      readFrame rw.memory.store 1 = some (0, ws, none) ∧
      ws.map (sharedAt rw.memory.store) = sargs.map some := by
  have hfa : readFrame (workerInitRuntime sm).memory.store 1 =
      some (0, [], none) := rfl
  have hkeys : ∀ k ∈ storeKeys (workerInitRuntime sm).memory.store,
      k < (workerInitRuntime sm).memory.next := by
    intro k hk
    simp only [workerInitRuntime, storeKeys, List.map_cons, List.map_nil,
      List.mem_cons, List.not_mem_nil, or_false] at hk
    show k < 2
    rcases hk with hk | hk <;> omega
  have hcap : (workerInitRuntime sm).memory.n_object + sargs.reverse.length ≤
      (workerInitRuntime sm).memory.n_slots_max := by
    show 2 + sargs.reverse.length ≤ 1024
    rw [List.length_reverse]
    omega
  obtain ⟨r', outAddrs, hrun', hframes, hrf', hmap, _⟩ :=
    pushSharedAll_spec sargs.reverse (workerInitRuntime sm)
      1 0 [] none rfl hfa hkeys hcap
  refine ⟨r', outAddrs, ?_, hframes, by simpa using hrf', ?_⟩
  · rw [workerBoot_eq]
    exact hrun'
  · rw [hmap, List.map_reverse, List.reverse_reverse]

/-! ## Claim theorems -/

/-- C10: the type-erased wrapper forwards payload behaviour faithfully.
For every payload type `t` and value `x`, `Object::new(x).get_holdee()`
returns exactly `x.get_holdee()`, and `Object::new(x).into_sync()`
succeeds iff `x.to_sync()` succeeds, yielding a `SyncObject` wrapping
`to_sync`'s result and propagating its error otherwise. -/
theorem C10_wrapper_forwards_payload (t : Ty) (x : t.denote) :
    (Object.new t x).get_holdee = t.getHoldee x ∧
    (Object.new t x).into_sync = (t.toSync x).map SyncObject.new := by
  constructor
  · show getObjectHoldee t (t.upcast x) = _
    unfold getObjectHoldee
    rw [downcast_upcast]
  · show makeSyncF t (t.upcast x) = _
    unfold makeSyncF
    rw [downcast_upcast]
    cases h : t.toSync x <;>
      simp [h, Except.map, Except.bind, bind, pure, Except.pure]

/-- A `SyncObject` whose write lock is held by thread 0. -/
def lockedElsewhere : SyncObject :=
  { content := .int 7, lock := { readers := 0, writer := some 0 } }

/-- C8 counterexample: the claim says a Shared cell's `get_ref` fails
with BorrowViolated only on same-thread re-entrancy, and that
cross-thread contention blocks rather than fails.  With the write lock
held by thread 0 and the caller on thread 1 (a different thread),
`get_ref` — a `try_read` that never consults thread identity and never
blocks — returns the error anyway. -/
theorem C8_counterexample :
    lockedElsewhere.lock.writer = some 0 ∧ (0 : Nat) ≠ 1 ∧
    Dual.get_ref (.Shared lockedElsewhere) = .error .violateSync :=
  ⟨rfl, by decide, rfl⟩

/-- C8 (amended): `Dual::get_ref` on a Local cell always hands out the
reference (no exclusive borrow can be outstanding at the call — the
borrow checker excludes it statically); on a Shared cell it fails with
`ViolateSync` (the code's name for the spec's BorrowViolated) exactly
when a write guard is outstanding, held by *any* thread, and it never
blocks — blocking on contention is the separate `sync_ref` variant. -/
theorem C8_get_ref_checked (obj : Object) (s : SyncObject) :
    Dual.get_ref (.Local obj) = .ok (.Local obj) ∧
    Dual.get_ref (.Shared s) =
      (if s.lock.writer.isSome then .error .violateSync
       else .ok (.Shared ⟨s.content⟩)) := by
  constructor
  · rfl
  · unfold Dual.get_ref SyncObject.get_ref
    by_cases h : s.lock.writer.isSome <;> simp [h, Except.map]

/-- C3: promotion (`Address::share`) is idempotent and
address-preserving: promoting a Shared slot returns a clone of the
existing handle and leaves the cell unchanged; promoting a Local slot
replaces its cell in place with the Shared cell derived from the Local
payload via `to_sync` (`Object::into_sync`), keeping the store's
addresses unchanged; and a second promotion after a successful one
returns the same shared payload handle with no further change. -/
theorem C3_promotion_idempotent (st : Store) (a : Nat) (slot : Slot)
    (h : lookupSlot st a = some slot) :
    (∀ s, slot.dual = .Shared s → Address.share a st = .ok (s, st)) ∧
    (∀ obj s, slot.dual = .Local obj → obj.into_sync = .ok s →
      Address.share a st = .ok (s, setDual st a (.Shared s)) ∧
      storeKeys (setDual st a (.Shared s)) = storeKeys st ∧
      Address.share a (setDual st a (.Shared s)) =
        .ok (s, setDual st a (.Shared s))) := by
  refine ⟨fun s hd => share_shared h hd, fun obj s hd hs => ?_⟩
  refine ⟨share_local_ok h hd hs, storeKeys_setDual st a _, ?_⟩
  have h2 : lookupSlot (setDual st a (.Shared s)) a =
      some { slot with dual := .Shared s } := by
    rw [lookupSlot_setDual_self, h]
    rfl
  exact share_shared h2 rfl

/-- A one-slot store holding a Local `Int(42)`. -/
def exStore3 : Store := [(0, Slot.new (.Local (Object.new .int (42 : Int))))]

/-- The shared handle `Int(42)` promotes to. -/
def exSync3 : SyncObject := SyncObject.new (.int 42)

theorem C3_witness :
    Address.share 0 exStore3 = .ok (exSync3, setDual exStore3 0 (.Shared exSync3)) ∧
    Address.share 0 (setDual exStore3 0 (.Shared exSync3)) =
      .ok (exSync3, setDual exStore3 0 (.Shared exSync3)) :=
  let h := (C3_promotion_idempotent exStore3 0
    (Slot.new (.Local (Object.new .int (42 : Int)))) rfl).2
    (Object.new .int (42 : Int)) exSync3 rfl rfl
  ⟨h.1, h.2.2⟩

/-- A one-slot store holding a Local `Node` (whose `to_sync` refuses). -/
def exNodeStore : Store := [(0, Slot.new (.Local (Object.new .node [])))]

/-- C4 (code bug, evaluated at the failing input): promoting a Local
slot whose payload is unsharable returns `NotSharable`, but on that
path the `unsafe` block of `Address::share` has already moved the
`Dual` out of the `ptr::read` copy and consumed the Local payload
(`Object::take` frees the box, the refused value is dropped inside
`to_sync`), and the early `?` return skips the `ptr::write`
(`writeBack = false`).  The slot's bytes still reference the dropped
payload, so it is *not* still readable — the next access is a
use-after-free, contradicting the claim that the error leaves the
original Local payload present and readable. -/
theorem C4_share_error_consumes_payload :
    shareTrace (.Local (Object.new .node [])) =
      { result := .error .notSharable, localPayloadConsumed := true,
        writeBack := false } ∧
    Address.share 0 exNodeStore = .error .notSharable :=
  ⟨rfl, rfl⟩

/-- C5 (code bug, evaluated at the failing input): the first invocation
of the join method takes the handle and delivers the worker's results,
leaving the `Join` consumed; the second invocation finds the handle
`None` and the source executes `unimplemented!()` — a panic — rather
than returning a `JoinConsumed` error (the `Error` enum of
`src/core/error.rs` has no such variant). -/
theorem C5_join_second_invocation_panics :
    (joinStep (some (.ok [SyncObject.new (.int 5)]))).1 =
      .ok [SyncObject.new (.int 5)] ∧
    (joinStep (some (.ok [SyncObject.new (.int 5)]))).2 = none ∧
    (joinStep (joinStep (some (.ok [SyncObject.new (.int 5)]))).2).1 =
      .panicked :=
  ⟨rfl, rfl, rfl⟩

/-- C1: for every well-formed heap whose entry is set, after
`collect()` the surviving slots are exactly the closure of addresses
reachable from the entry by repeatedly following `get_holdee` (where a
Shared slot contributes an empty holdee list, by `Dual::get_holdee`),
and the non-surviving slots are each released exactly once (the
release list has no duplicates and contains exactly the unreachable
slots). -/
theorem C1_collect_survivors_reachable (m : Memory) (hwf : m.WF) (e : Nat)
    (he : m.entry = some e) :
    (∀ a, a ∈ m.collect.slots ↔ a ∈ m.slots ∧ Reach m.store e a) ∧
    (∀ a, a ∈ m.collectAux.2 ↔ a ∈ m.slots ∧ ¬ Reach m.store e a) ∧
    m.collectAux.2.Nodup :=
  collect_characterisation hwf he

/-- A two-slot heap: a root `Node` holding itself at address 0 (the
entry) and an unreachable `Int` at address 1. -/
def mEx1 : Memory :=
  { store := [(0, Slot.new (.Local (Object.new .node [0]))),
              (1, Slot.new (.Local (Object.new .int (3 : Int))))],
    slots := [0, 1], n_slots_max := 16, entry := some 0, next := 2 }

theorem mEx1_wf : mEx1.WF := by
  refine ⟨by decide, by decide, by decide, ?_, by decide, by decide⟩
  intro e he
  injection he with h
  rw [← h]
  decide

theorem C1_witness :
    (0 ∈ mEx1.collect.slots ↔ 0 ∈ mEx1.slots ∧ Reach mEx1.store 0 0) ∧
    (1 ∈ mEx1.collectAux.2 ↔ 1 ∈ mEx1.slots ∧ ¬ Reach mEx1.store 0 1) ∧
    mEx1.collectAux.2.Nodup :=
  ⟨(C1_collect_survivors_reachable mEx1 mEx1_wf 0 rfl).1 0,
   (C1_collect_survivors_reachable mEx1 mEx1_wf 0 rfl).2.1 1,
   (C1_collect_survivors_reachable mEx1 mEx1_wf 0 rfl).2.2⟩

/-- C2: `insert_local` and `insert_shared` delegate to `insert_dual`,
which runs a collection exactly when the slot count equals
`n_slots_max` (the `if` in the statement), before allocating; the
insertion returns a new (fresh, previously unused) `Address` iff the
slot count is below `n_slots_max` after that collection, and returns
`OutOfMemory` with no slot allocated (the memory is exactly the
collected state) otherwise. -/
theorem C2_insert_capacity (m : Memory) (hwf : m.WF)
    (hle : m.n_object ≤ m.n_slots_max) :
    (∀ o, m.insert_local o = m.insert_dual (.Local o)) ∧
    (∀ s, m.insert_shared s = m.insert_dual (.Shared s)) ∧
    ∀ d : Dual,
      ((m.insert_dual d).1.isOk ↔
        (if m.n_object = m.n_slots_max then m.collect else m).n_object <
          m.n_slots_max) ∧
      (¬ (m.insert_dual d).1.isOk →
        m.insert_dual d =
          (.error .outOfMemory,
           if m.n_object = m.n_slots_max then m.collect else m)) ∧
      (∀ a, (m.insert_dual d).1 = .ok a →
        a = m.next ∧
        a ∉ (if m.n_object = m.n_slots_max then m.collect else m).slots ∧
        (m.insert_dual d).2.slots =
          (if m.n_object = m.n_slots_max then m.collect else m).slots ++ [a] ∧
        lookupSlot (m.insert_dual d).2.store a = some (Slot.new d)) :=
  ⟨fun _ => rfl, fun _ => rfl, fun d => insert_dual_characterisation m d hwf hle⟩

/-- A full one-slot heap whose single slot is the entry, so collection
can free nothing. -/
def mEx2 : Memory :=
  { store := [(0, Slot.new (.Local (Object.new .int (1 : Int))))],
    slots := [0], n_slots_max := 1, entry := some 0, next := 1 }

theorem mEx2_wf : mEx2.WF := by
  refine ⟨by decide, by decide, by decide, ?_, by decide, by decide⟩
  intro e he
  injection he with h
  rw [← h]
  decide

/-- The dual whose insertion is attempted in the C2 witness. -/
def dEx2 : Dual := .Local (Object.new .int (9 : Int))

theorem C2_witness :
    mEx2.n_object ≤ mEx2.n_slots_max ∧
    ((mEx2.insert_dual dEx2).1.isOk ↔
      (if mEx2.n_object = mEx2.n_slots_max then mEx2.collect else mEx2).n_object <
        mEx2.n_slots_max) ∧
    (¬ (mEx2.insert_dual dEx2).1.isOk →
      mEx2.insert_dual dEx2 =
        (.error .outOfMemory,
         if mEx2.n_object = mEx2.n_slots_max then mEx2.collect else mEx2)) :=
  ⟨by decide, ((C2_insert_capacity mEx2 mEx2_wf (by decide)).2.2 dEx2).1,
   ((C2_insert_capacity mEx2 mEx2_wf (by decide)).2.2 dEx2).2.1⟩

/-- C7: for every well-formed heap with no entry set, `collect()`
treats every slot as unreachable: all slots are released (each appears
in the release list) and the heap is empty afterwards — whatever
insertion sequence produced the heap. -/
theorem C7_collect_without_entry_empties_heap (m : Memory) (hwf : m.WF)
    (he : m.entry = none) :
    m.collect.slots = [] ∧ m.collect.n_object = 0 ∧ m.collectAux.2 = m.slots := by
  obtain ⟨h1, h2⟩ := collect_no_entry hwf he
  refine ⟨h1, ?_, h2⟩
  show m.collect.slots.length = 0
  rw [h1]
  rfl

/-- A two-slot heap with no entry set. -/
def mEx7 : Memory :=
  { store := [(0, Slot.new (.Local (Object.new .int (1 : Int)))),
              (1, Slot.new (.Local (Object.new .node [0])))],
    slots := [0, 1], n_slots_max := 16, entry := none, next := 2 }

theorem mEx7_wf : mEx7.WF := by
  refine ⟨by decide, by decide, by decide, ?_, by decide, by decide⟩
  intro e he
  exact Option.noConfusion he

theorem C7_witness :
    mEx7.collect.slots = [] ∧ mEx7.collect.n_object = 0 ∧
    mEx7.collectAux.2 = mEx7.slots :=
  C7_collect_without_entry_empties_heap mEx7 mEx7_wf rfl

/-- C9: the mark bit is false outside of a collection cycle: a freshly
allocated slot starts unmarked (`Slot.new`, the initialisation of
`Address::new`); after `insert_dual` (which may run a collection),
after `collect` itself, after a successful `Address::share`, and after
`set_entry`, every slot box in the store has its mark bit clear — so
every heap operation preserves the invariant. -/
theorem C9_mark_bit_clear (m : Memory) (hwf : m.WF) :
    (∀ d, (Slot.new d).mark = false) ∧
    (∀ d, ∀ p ∈ (m.insert_dual d).2.store, p.2.mark = false) ∧
    (∀ p ∈ m.collect.store, p.2.mark = false) ∧
    (∀ a s st', Address.share a m.store = .ok (s, st') →
      ∀ p ∈ st', p.2.mark = false) ∧
    (∀ e, ∀ p ∈ (m.set_entry e).store, p.2.mark = false) :=
  ⟨fun _ => rfl, fun d => insert_dual_marksClear m d hwf,
   collect_marksClear hwf,
   fun a _ _ h => share_marksClear hwf.marksClear a h,
   fun _ => hwf.marksClear⟩

/-- A two-slot heap (entry at the root node) for the C9 witness. -/
def mEx9 : Memory :=
  { store := [(0, Slot.new (.Local (Object.new .node [1]))),
              (1, Slot.new (.Local (Object.new .int (4 : Int))))],
    slots := [0, 1], n_slots_max := 8, entry := some 0, next := 2 }

theorem mEx9_wf : mEx9.WF := by
  refine ⟨by decide, by decide, by decide, ?_, by decide, by decide⟩
  intro e he
  injection he with h
  rw [← h]
  decide

theorem C9_witness :
    (∀ d, (Slot.new d).mark = false) ∧
    (∀ p ∈ mEx9.collect.store, p.2.mark = false) :=
  ⟨(C9_mark_bit_clear mEx9 mEx9_wf).1, (C9_mark_bit_clear mEx9 mEx9_wf).2.2.1⟩

/-- C6 (runtime modelled from the spec): argument and result ordering
of the thread primitive.  (a) The spawn body pops the caller's operand
stack top-down (`collectArgsList` over the top-first stack `stk`),
promoting each argument; the worker re-inserts and pushes the collected
shared arguments in reverse collection order (`workerBoot`), so the
worker's initial frame holds, top-first, addresses denoting exactly the
same shared payloads in the same order as the caller's stack — i.e. the
caller's left-to-right push order is preserved.  (b) The worker's
results, collected top-down, are delivered by the join method in
reverse collection order (`deliverResults`), each pushed and copied to
the parent frame via `push_parent(1)`, so the parent frame gains,
top-first, addresses denoting the results in the worker's own stack
order — i.e. the worker's push order is preserved. -/
theorem C6_thread_argument_result_order
    (st : Store) (stk : List Nat) (sm : SyncObject)
    (hsh : ∀ a ∈ stk, (origShare st a).isSome) (hn : stk.length ≤ 1022)
    (rc : Runtime) (fa pa cctx pc : Nat) (cs ps : List Nat) (pp : Option Nat)
    (results : List SyncObject)
    (hhead : rc.frames.head? = some fa) (hne : fa ≠ pa)
    (hfa : readFrame rc.memory.store fa = some (cctx, cs, some pa))
    (hpa : readFrame rc.memory.store pa = some (pc, ps, pp))
    (hkeys : ∀ k ∈ storeKeys rc.memory.store, k < rc.memory.next)
    (hcap : rc.memory.n_object + results.length ≤ rc.memory.n_slots_max) :
    (∃ args st', collectArgsList st stk = .ok (args, st') ∧
      stk.map (origShare st) = args.map some ∧
      ∃ rw ws, workerBoot sm args = .ok rw ∧ rw.frames = [1] ∧
        readFrame rw.memory.store 1 = some (0, ws, none) ∧
        ws.map (sharedAt rw.memory.store) = args.map some) ∧
    (∃ rc' outAddrs, deliverResults rc results = .ok rc' ∧
      rc'.frames = rc.frames ∧
      readFrame rc'.memory.store pa = some (pc, outAddrs ++ ps, pp) ∧
      outAddrs.map (sharedAt rc'.memory.store) = results.map some) := by
  constructor
  · obtain ⟨args, st', h1, h2, _⟩ := collectArgsList_spec stk st hsh
    have hlen : args.length = stk.length := by
      have h3 := congrArg List.length h2
      simpa using h3.symm
    obtain ⟨rw, ws, h4, h5, h6, h7⟩ := workerBoot_spec sm args (by omega)
    exact ⟨args, st', h1, h2, rw, ws, h4, h5, h6, h7⟩
  · unfold deliverResults
    obtain ⟨rc', outAddrs, h1, h2, h3, h4, _⟩ :=
      deliverLoop_spec results.reverse rc fa pa cctx pc cs ps pp hhead hne
        hfa hpa hkeys (by rw [List.length_reverse]; exact hcap)
    refine ⟨rc', outAddrs, h1, h2, h3, ?_⟩
    rw [h4, List.map_reverse, List.reverse_reverse]

/-- A caller store with two promotable Int arguments. -/
def st6 : Store := [(0, Slot.new (.Local (Object.new .int (1 : Int)))),
                    (1, Slot.new (.Local (Object.new .int (2 : Int))))]

/-- The promoted method handle used in the C6 witness. -/
def sm6 : SyncObject := SyncObject.new (.method 0 0)

/-- A caller runtime: the join-method frame at 0 (parent 1), the parent
frame at 1. -/
def rc6 : Runtime :=
  { memory :=
      { store := [(0, Slot.new (.Local (Object.new .frame (7, [], some 1)))),
                  (1, Slot.new (.Local (Object.new .frame (8, [], none))))],
        slots := [0, 1], n_slots_max := 16, entry := some 0, next := 2 },
    frames := [0, 1] }

/-- A single worker result. -/
def results6 : List SyncObject := [SyncObject.new (.int 9)]

theorem C6_witness :
    (∃ args st', collectArgsList st6 [0, 1] = .ok (args, st') ∧
      [0, 1].map (origShare st6) = args.map some ∧
      ∃ rw ws, workerBoot sm6 args = .ok rw ∧ rw.frames = [1] ∧
        readFrame rw.memory.store 1 = some (0, ws, none) ∧
        ws.map (sharedAt rw.memory.store) = args.map some) ∧
    (∃ rc' outAddrs, deliverResults rc6 results6 = .ok rc' ∧
      rc'.frames = rc6.frames ∧
      readFrame rc'.memory.store 1 = some (8, outAddrs ++ [], none) ∧
      outAddrs.map (sharedAt rc'.memory.store) = results6.map some) :=
  C6_thread_argument_result_order st6 [0, 1] sm6 (by decide) (by decide)
    rc6 0 1 7 8 [] [] none results6 rfl (by decide) rfl rfl
    (by decide) (by decide)

end Shattuck
